import Mathlib

/-!
# Verification of `UtilsParsing.cpp` (FLARE engine, namespace `Parse`)

A shallow embedding of the configuration-value parsing utilities.

Conventions of the embedding

* A `std::string` is the list of its `char`s (`Str`).  String literals are ASCII.
* `size_t` is a natural number below `2^64`; `std::string::npos` is `2^64 - 1`
  and `size_t` addition wraps modulo `2^64`.  A `std::string` never has
  `npos` or more characters, which appears in theorems as `s.length < npos`.
* `substr` and `erase` throw `std::out_of_range` when the start position
  exceeds the length; they return `Option`, and so does every function that
  calls them.
* `int` is a 32-bit two's complement integer, held in `Int`.
* `logError` only writes to the log and is left out.
* Default arguments, constants and classes declared in headers that are not
  among the sources are parameters of the functions that use them, or are
  modelled from the spec where a doc comment says so.
* A `void*` slot and the `std::type_info` passed with it are one value of the
  type `Slot`.
-/

namespace Parse

/-! ## Strings and `size_t` -/

/-- A `std::string`, as the sequence of its characters. -/
abbrev Str := List Char

/-- The value `std::string::npos`, the largest `size_t`. -/
def npos : Nat := 2 ^ 64 - 1

/-- Addition on `size_t`, wrapping modulo `2^64`. -/
def sizeAdd (a b : Nat) : Nat := (a + b) % 2 ^ 64

/-- The test "character `c` occurs in the delimiter string `d`". -/
def inSet (d : Str) (c : Char) : Bool := d.contains c

/-- The call `s.find_first_of(c)`: index of the first occurrence of `c`, or `npos`. -/
def find_first_of (s : Str) (c : Char) : Nat :=
  let n := (s.takeWhile (fun x => x != c)).length
  if n < s.length then n else npos

/-- The call `s.find_first_not_of(d)`: index of the first character that is not in
`d`, or `npos`. -/
def find_first_not_of (s d : Str) : Nat :=
  let n := (s.takeWhile (inSet d)).length
  if n < s.length then n else npos

/-- The call `s.find_last_not_of(d)`: index of the last character that is not in `d`,
or `npos`. -/
def find_last_not_of (s d : Str) : Nat :=
  let n := (s.reverse.takeWhile (inSet d)).length
  if n < s.length then s.length - 1 - n else npos

/-- The call `s.substr(pos, n)`: throws when `pos > s.size()`, otherwise the at most
`n` characters from `pos` on. -/
def substr (s : Str) (pos n : Nat) : Option Str :=
  if s.length < pos then none else some ((s.drop pos).take n)

/-- The call `s.erase(pos, n)`: throws when `pos > s.size()`, otherwise removes
`min(n, size - pos)` characters from `pos` on.  The one-argument call
`s.erase(pos)` is `erase s pos npos`. -/
def erase (s : Str) (pos n : Nat) : Option Str :=
  if s.length < pos then none
  else some (s.take pos ++ s.drop (pos + min n (s.length - pos)))

/-! ## Line and token utilities -/

/-- The function `Parse::trim(s, delimiters)`. -/
def trim (s delimiters : Str) : Option Str := do
  let tmp ← erase s (sizeAdd (find_last_not_of s delimiters) 1) npos
  erase tmp 0 (find_first_not_of tmp delimiters)

/-- The string `s` without its trailing and leading characters that occur in
`d`: what `trim` is specified to return. -/
def trimmed (s d : Str) : Str := (s.rdropWhile (inSet d)).dropWhile (inSet d)

/-- Modelled from the spec: the default value of the parameter `delimiters`
of `trim`.  It is declared in the header `UtilsParsing.h`, which is not among
the sources; the spec calls it the white-space delimiters. -/
def defaultDelimiters : Str :=
  [' ', Char.ofNat 12, '\n', '\r', '\t', Char.ofNat 11]

/-- The function `Parse::getKeyPair(s, key, val)`; the result is the pair `(key, val)`.
The default argument of `trim` is declared in the header, so the
delimiter string is the parameter `ws`. -/
def getKeyPair (ws s : Str) : Option (Str × Str) :=
  let separator := find_first_of s '='
  if separator = npos then some ([], [])
  else do
    let key ← substr s 0 separator
    let val ← substr s (sizeAdd separator 1) s.length
    let key ← trim key ws
    let val ← trim val ws
    pure (key, val)

/-- The function `Parse::popFirstString(s, separator)`; the result is the returned token
paired with the new content of `s`.  `separator` is the character code, with
`0` for the default. -/
def popFirstString (s : Str) (separator : Char) : Option (Str × Str) :=
  let seppos :=
    if separator = Char.ofNat 0 then
      let seppos := find_first_of s ','
      let alt_seppos := find_first_of s ';'
      if alt_seppos ≠ npos ∧ alt_seppos < seppos then alt_seppos else seppos
    else find_first_of s separator
  if seppos = npos then some (s, [])
  else do
    let outs ← substr s 0 seppos
    let rest ← substr s (sizeAdd seppos 1) s.length
    pure (outs, rest)

/-- The test "character `c` is a separator" for a call of `popFirstString`
with the argument `separator`: `,` and `;` for the default `0`, the given
character otherwise. -/
def isSeparator (separator c : Char) : Bool :=
  if separator = Char.ofNat 0 then c = ',' ∨ c = ';' else c = separator

/-- The effect of `n` successive calls `popFirstString(s)` with the default separator on
the same string variable: the tokens returned, in order, and the final
content of `s`. -/
def popRepeat : Nat → Str → Option (List Str × Str)
  | 0, s => some ([], s)
  | n + 1, s => do
    let r ← popFirstString s (Char.ofNat 0)
    let rs ← popRepeat n r.2
    pure (r.1 :: rs.1, rs.2)

/-- The text made of the token `t` followed, for each pair `(c, u)` of the
list, by the separator `c` and the token `u`. -/
def joinTokens : Str → List (Char × Str) → Str
  | t, [] => t
  | t, (c, u) :: rest => t ++ c :: joinTokens u rest

/-! ## Booleans -/

/-- The C function `tolower` in the "C" locale: the letters `A`..`Z` map to
`a`..`z`, every other character to itself. -/
def tolower (c : Char) : Char :=
  if 65 ≤ c.toNat ∧ c.toNat ≤ 90 then Char.ofNat (c.toNat + 32) else c

/-- The function `Parse::toBool(value)`.  The call `trim(value)` is made and its result is
dropped, as in the source; `ws` is the default delimiter string of `trim`. -/
def toBool (ws value : Str) : Option Bool := do
  let _ ← trim value ws
  let value := value.map tolower
  if value = "true".toList then pure true
  else if value = "yes".toList then pure true
  else if value = "1".toList then pure true
  else if value = "false".toList then pure false
  else if value = "no".toList then pure false
  else if value = "0".toList then pure false
  else pure false

/-! ## Formatted extraction from a `std::stringstream` -/

/-- The largest `int`. -/
def INT_MAX : Int := 2147483647

/-- The smallest `int`. -/
def INT_MIN : Int := -2147483648

/-- Arithmetic on `int`: the result is reduced to the 32-bit two's
complement range. -/
def wrapInt (z : Int) : Int := (z + 2147483648) % 4294967296 - 2147483648

/-- The C function `isspace` in the "C" locale. -/
def isspace (c : Char) : Bool :=
  c = ' ' ∨ c = '\t' ∨ c = '\n' ∨ c = Char.ofNat 11 ∨ c = Char.ofNat 12 ∨ c = '\r'

/-- The C function `isdigit`. -/
def isdigit (c : Char) : Bool := 48 ≤ c.toNat ∧ c.toNat ≤ 57

/-- An input string stream: the characters not read yet, and whether
`failbit` is set.  A stream at end of input has an empty `buf`; `eofbit` is
not kept apart, because an extraction at end of input fails either way and
leaves its target untouched. -/
structure IStream where
  buf : Str
  fail : Bool
deriving DecidableEq, Repr

/-- The number written by a run of decimal digits. -/
def digitsValue (ds : Str) : Nat :=
  ds.foldl (fun a c => 10 * a + (c.toNat - 48)) 0

/-- The extraction `stream >> val` for an `int` (decimal base, `skipws` set), given the old
content of `val`: leading white space is skipped, then an optional sign and
the longest run of digits are read.  Without a digit the extraction fails and
stores `0`; a value outside the `int` range fails and stores the nearest
bound.  On a stream that has failed, or holds only white space, `val` keeps
its old content. -/
def extractInt (st : IStream) (old : Int) : Int × IStream :=
  if st.fail then (old, st)
  else
    match st.buf.dropWhile isspace with
    | [] => (old, ⟨[], true⟩)
    | c :: cs =>
      let body := if c = '-' ∨ c = '+' then cs else c :: cs
      let ds := body.takeWhile isdigit
      let rest := body.dropWhile isdigit
      if ds = [] then (0, ⟨rest, true⟩)
      else
        let v : Int := if c = '-' then -(digitsValue ds : Int) else (digitsValue ds : Int)
        if v < INT_MIN then (INT_MIN, ⟨rest, true⟩)
        else if INT_MAX < v then (INT_MAX, ⟨rest, true⟩)
        else (v, ⟨rest, false⟩)

/-- The extraction `stream >> str` for a `std::string`, given the old content of `str`:
leading white space is skipped and the characters up to the next white space
are read.  On a stream that has failed, or holds only white space, `str`
keeps its old content. -/
def extractWord (st : IStream) (old : Str) : Str × IStream :=
  if st.fail then (old, st)
  else
    match st.buf.dropWhile isspace with
    | [] => (old, ⟨[], true⟩)
    | c :: cs =>
      ((c :: cs).takeWhile (fun x => !isspace x),
        ⟨(c :: cs).dropWhile (fun x => !isspace x), false⟩)

/-- The character of the decimal digit `n`. -/
def digitChar (n : Nat) : Char := Char.ofNat (48 + n)

/-- Auxiliary recursion of `natText`: the digits of `n` are put in front of
`acc`, the last digit first. -/
def natDigits : Nat → Nat → Str → Str
  | 0, _, acc => acc
  | f + 1, n, acc =>
    if n < 10 then digitChar n :: acc
    else natDigits f (n / 10) (digitChar (n % 10) :: acc)

/-- The decimal text of a natural number, without leading zeros. -/
def natText (n : Nat) : Str := natDigits (n + 1) n []

/-- The decimal text of an integer: a minus sign for a negative one, then
the decimal text of its absolute value. -/
def intText (v : Int) : Str :=
  if v < 0 then '-' :: natText v.natAbs else natText v.natAbs

/-! ## Single precision arithmetic

A finite IEEE 754 binary32 number is an integer multiple of `2^-149`; it is
held as that integer.  Every operation returns the correctly rounded result
(round to nearest, ties to even).  Overflow to infinity is not modelled: all
magnitudes met in `toDuration` are below `2^32`. -/

/-- The number `1` in units of `2^-149`. -/
def f32one : Nat := 2 ^ 149

/-- Auxiliary recursion of `ilog2`. -/
def log2Fuel : Nat → Nat → Nat
  | 0, _ => 0
  | f + 1, n => if 2 ≤ n then log2Fuel f (n / 2) + 1 else 0

/-- The integer binary logarithm, `0` at `0`. -/
def ilog2 (n : Nat) : Nat := log2Fuel n n

/-- The integer nearest to `n / d`, ties going to the even one. -/
def rne (n : Int) (d : Nat) : Int :=
  let q := n / (d : Int)
  let r := n % (d : Int)
  if 2 * r < d then q
  else if (d : Int) < 2 * r then q + 1
  else if q % 2 = 0 then q else q + 1

/-- The binary32 number nearest to `n / d` units.  A number in the binade
`[2^j, 2^(j+1))` units is rounded to a multiple of `2^(j-23)` units, and
below `2^24` units to a whole unit. -/
def f32round (n : Int) (d : Nat) : Int :=
  let g := ilog2 (n.natAbs / d) - 23
  rne n (d * 2 ^ g) * ((2 ^ g : Nat) : Int)

/-- The conversion `static_cast<float>(x)` for an `int` `x`. -/
def f32ofInt (x : Int) : Int := f32round (x * (f32one : Int)) 1

/-- Single precision `a / b` for `b ≠ 0`. -/
def f32div (a b : Int) : Int := f32round (a * b.sign * (f32one : Int)) b.natAbs

/-- Single precision `a + b`. -/
def f32add (a b : Int) : Int := f32round (a + b) 1

/-- The function `floorf`. -/
def floorf (a : Int) : Int := a / (f32one : Int) * (f32one : Int)

/-- The conversion `static_cast<int>(a)`: truncation toward zero. -/
def f32toInt (a : Int) : Int := Int.tdiv a (f32one : Int)

/-- The literal `1000.f`. -/
def f32thousand : Int := 1000 * (f32one : Int)

/-- The literal `0.5f`. -/
def f32half : Int := ((2 ^ 148 : Nat) : Int)

/-! ## Durations -/

/-- The function `Parse::toDuration(s)`, with `settings->max_frames_per_sec` as the
parameter `fps`. -/
def toDuration (fps : Int) (s : Str) : Int :=
  let r1 := extractInt ⟨s, false⟩ 0
  let r2 := extractWord r1.2 []
  let val := r1.1
  let suffix := r2.1
  if val = 0 then val
  else
    let val :=
      if suffix = "s".toList then wrapInt (val * fps)
      else
        f32toInt (floorf (f32add
          (f32div (f32ofInt (wrapInt (val * fps))) f32thousand) f32half))
    if val < 1 then 1 else val
/-! ## Section titles and carriage returns -/

/-- Subtraction on `size_t`, wrapping modulo `2^64`. -/
def sizeSub (a b : Nat) : Nat := (a + 2 ^ 64 - b % 2 ^ 64) % 2 ^ 64

/-- The call `s.at(i)`: throws when `i` is not below `s.size()`. -/
def charAt (s : Str) (i : Nat) : Option Char := s.get? i

/-- The function `Parse::getSectionTitle(s)`. -/
def getSectionTitle (s : Str) : Option Str :=
  let bracket := find_first_of s ']'
  if bracket = npos then some []
  else substr s 1 (sizeSub bracket 1)

/-- The function `Parse::stripCarriageReturn(line)`. -/
def stripCarriageReturn (line : Str) : Option Str :=
  if 0 < line.length then do
    let c ← charAt line (line.length - 1)
    if '\r' = c then substr line 0 (line.length - 1) else pure line
  else pure line

/-! ## Integers and directions -/

/-- The function `Parse::toInt(s, default_value)`.  The variable `result` is
not initialised; it is read only after a successful extraction. -/
def toInt (s : Str) (default_value : Int) : Int :=
  let r := extractInt ⟨s, false⟩ 0
  if r.2.fail then default_value else r.1

/-- The function `Parse::popFirstInt(s, separator)`; the result is the
returned number paired with the new content of `s`.  The default argument of
`toInt` is declared in the header, so it is the parameter `dflt`. -/
def popFirstInt (dflt : Int) (s : Str) (separator : Char) : Option (Int × Str) := do
  let r ← popFirstString s separator
  pure (toInt r.1 dflt, r.2)

/-- The function `Parse::toDirection(s)`, with the default argument of
`toInt` as the parameter `dflt`. -/
def toDirection (dflt : Int) (s : Str) : Int :=
  if s = "N".toList then 3
  else if s = "NE".toList then 4
  else if s = "E".toList then 5
  else if s = "SE".toList then 6
  else if s = "S".toList then 7
  else if s = "SW".toList then 0
  else if s = "W".toList then 1
  else if s = "NW".toList then 2
  else
    let dir := toInt s dflt
    if dir < 0 ∨ dir > 7 then 0 else dir

/-- The eight compass abbreviations. -/
def compassNames : List Str :=
  ["N".toList, "NE".toList, "E".toList, "SE".toList, "S".toList, "SW".toList,
    "W".toList, "NW".toList]

/-- The test "no number can be extracted from `s`": after the leading white
space and an optional sign, `s` is at its end or continues with a character
that is not a digit. -/
def lacksNumber (s : Str) : Bool :=
  let body :=
    match s.dropWhile isspace with
    | [] => []
    | c :: cs => if c = '-' ∨ c = '+' then cs else c :: cs
  match body with
  | [] => true
  | c :: _ => !isdigit c

/-! ## Colours -/

/-- The conversion `static_cast<Uint8>(x)` of an `int`: reduction modulo
`256` into `0..255`. -/
def toUint8 (x : Int) : Nat := (x % 256).toNat

/-- The four 8 bit channels of a `Color`. -/
structure Color where
  r : Nat
  g : Nat
  b : Nat
  a : Nat
deriving DecidableEq, Repr

/-- The function `Parse::toRGBA(value)`, with the default argument of `toInt`
as the parameter `dflt`; `popFirstInt` is called with its default separator. -/
def toRGBA (dflt : Int) (value : Str) : Option Color := do
  let r ← popFirstInt dflt value (Char.ofNat 0)
  let g ← popFirstInt dflt r.2 (Char.ofNat 0)
  let b ← popFirstInt dflt g.2 (Char.ofNat 0)
  let a ← popFirstInt dflt b.2 (Char.ofNat 0)
  pure ⟨toUint8 r.1, toUint8 g.1, toUint8 b.1, toUint8 a.1⟩

/-! ## Label layout descriptors -/

/-- Modelled from the spec: the justification constants `JUSTIFY_LEFT`,
`JUSTIFY_CENTER` and `JUSTIFY_RIGHT` of `FontEngine`, whose header is not
among the sources: an enumeration of left, center and right. -/
inductive Justify where
  | left
  | center
  | right
deriving DecidableEq, Repr

/-- Modelled from the spec: the constants `VALIGN_TOP`, `VALIGN_CENTER` and
`VALIGN_BOTTOM` of `LabelInfo`, whose header is not among the sources: an
enumeration of top, center and bottom. -/
inductive VAlign where
  | top
  | center
  | bottom
deriving DecidableEq, Repr

/-- Modelled from the spec: the class `LabelInfo` of `WidgetLabel.h`, which
is not among the sources: a hidden flag, the offsets `x` and `y`, the
justification, the vertical alignment and the font style. -/
structure LabelInfo where
  x : Int
  y : Int
  justify : Justify
  valign : VAlign
  hidden : Bool
  font_style : Str
deriving DecidableEq, Repr

/-- The keyword of a justification. -/
def Justify.keyword : Justify → Str
  | .left => "left".toList
  | .center => "center".toList
  | .right => "right".toList

/-- The keyword of a vertical alignment. -/
def VAlign.keyword : VAlign → Str
  | .top => "top".toList
  | .center => "center".toList
  | .bottom => "bottom".toList

/-- The function `Parse::popLabelInfo(val)`.  The default-constructed
`LabelInfo` is the parameter `init` (its constructor is declared in the
header), and `dflt` is the default argument of `toInt`. -/
def popLabelInfo (init : LabelInfo) (dflt : Int) (val : Str) : Option LabelInfo := do
  let info := init
  let tmp ← popFirstString val (Char.ofNat 0)
  if tmp.1 = "hidden".toList then
    pure { info with hidden := true }
  else do
    let info := { info with hidden := false }
    let info := { info with x := toInt tmp.1 dflt }
    let y ← popFirstInt dflt tmp.2 (Char.ofNat 0)
    let info := { info with y := y.1 }
    let justify ← popFirstString y.2 (Char.ofNat 0)
    let valign ← popFirstString justify.2 (Char.ofNat 0)
    let style ← popFirstString valign.2 (Char.ofNat 0)
    let info :=
      if justify.1 = "left".toList then { info with justify := Justify.left }
      else if justify.1 = "center".toList then { info with justify := Justify.center }
      else if justify.1 = "right".toList then { info with justify := Justify.right }
      else info
    let info :=
      if valign.1 = "top".toList then { info with valign := VAlign.top }
      else if valign.1 = "center".toList then { info with valign := VAlign.center }
      else if valign.1 = "bottom".toList then { info with valign := VAlign.bottom }
      else info
    let info := if style.1 ≠ [] then { info with font_style := style.1 } else info
    pure info

/-- The first token of a text: its characters in front of the first `,` or
`;`, or the whole text when it holds neither. -/
def firstToken (s : Str) : Str := s.takeWhile (fun c => !isSeparator (Char.ofNat 0) c)

/-- The text of a label descriptor with five fields separated by commas: the
decimal texts of `x` and `y`, then the three given tokens. -/
def labelText (x y : Int) (jt vt st : Str) : Str :=
  intText x ++ ',' :: (intText y ++ ',' :: (jt ++ ',' :: (vt ++ ',' :: st)))

/-! ## Typed scalar conversion -/

/-- The smallest `short`. -/
def SHRT_MIN : Int := -32768

/-- The largest `short`. -/
def SHRT_MAX : Int := 32767

/-- The largest `unsigned short`. -/
def USHRT_MAX : Int := 65535

/-- The largest `unsigned int`. -/
def UINT_MAX : Int := 4294967295

/-- The smallest `long`. -/
def LONG_MIN : Int := -9223372036854775808

/-- The largest `long`. -/
def LONG_MAX : Int := 9223372036854775807

/-- The extraction `stream >> val` for a signed integer type with the range
`[lo, hi]`, as `extractInt` does it for `int`. -/
def extractSigned (lo hi : Int) (st : IStream) (old : Int) : Int × IStream :=
  if st.fail then (old, st)
  else
    match st.buf.dropWhile isspace with
    | [] => (old, ⟨[], true⟩)
    | c :: cs =>
      let body := if c = '-' ∨ c = '+' then cs else c :: cs
      let ds := body.takeWhile isdigit
      let rest := body.dropWhile isdigit
      if ds = [] then (0, ⟨rest, true⟩)
      else
        let v : Int := if c = '-' then -(digitsValue ds : Int) else (digitsValue ds : Int)
        if v < lo then (lo, ⟨rest, true⟩)
        else if hi < v then (hi, ⟨rest, true⟩)
        else (v, ⟨rest, false⟩)

/-- The extraction `stream >> val` for an unsigned integer type with the
largest value `max`: the digits are read as for a signed type; a value above
`max` fails and stores `max`; after a minus sign the value is negated modulo
`max + 1`. -/
def extractUnsigned (max : Int) (st : IStream) (old : Int) : Int × IStream :=
  if st.fail then (old, st)
  else
    match st.buf.dropWhile isspace with
    | [] => (old, ⟨[], true⟩)
    | c :: cs =>
      let body := if c = '-' ∨ c = '+' then cs else c :: cs
      let ds := body.takeWhile isdigit
      let rest := body.dropWhile isdigit
      if ds = [] then (0, ⟨rest, true⟩)
      else if max < (digitsValue ds : Int) then (max, ⟨rest, true⟩)
      else if c = '-' then ((max + 1 - (digitsValue ds : Int)) % (max + 1), ⟨rest, false⟩)
      else ((digitsValue ds : Int), ⟨rest, false⟩)

/-- The extraction `stream >> val` for a `bool` (`boolalpha` not set): a
`long` is read; `0` stores `false`, `1` stores `true`, and any other number
stores `true` and fails. -/
def extractBool (st : IStream) (old : Bool) : Bool × IStream :=
  if st.fail then (old, st)
  else
    match st.buf.dropWhile isspace with
    | [] => (old, ⟨[], true⟩)
    | c :: cs =>
      let r := extractSigned LONG_MIN LONG_MAX ⟨c :: cs, false⟩ 0
      if r.1 = 0 then (false, r.2)
      else if r.1 = 1 then (true, r.2)
      else (true, ⟨r.2.buf, true⟩)

/-- The extraction `stream >> c` for a `char` or an `unsigned char`: leading
white space is skipped and one character is read.  On a stream that has
failed, or holds only white space, `c` keeps its old content. -/
def extractChar (st : IStream) (old : Char) : Char × IStream :=
  if st.fail then (old, st)
  else
    match st.buf.dropWhile isspace with
    | [] => (old, ⟨[], true⟩)
    | c :: cs => (c, ⟨cs, false⟩)

/-- A pointer `void*` together with the `std::type_info` of the object it
points to: the typed content of the slot.  A `float` is held as in the single
precision model; `other` stands for every type that is not in the list. -/
inductive Slot where
  | bool (b : Bool)
  | int (v : Int)
  | uint (v : Int)
  | short (v : Int)
  | ushort (v : Int)
  | char (c : Char)
  | uchar (c : Char)
  | float (x : Int)
  | string (s : Str)
  | other
deriving DecidableEq, Repr

/-- The function `Parse::tryParseValue(type, value, output)`; the result is
the returned flag paired with the new content of the slot.  The extraction of
a `float` from a stream is the parameter `readFloat`. -/
def tryParseValue (readFloat : IStream → Int → Int × IStream) (value : Str)
    (output : Slot) : Bool × Slot :=
  let stream : IStream := ⟨value, false⟩
  match output with
  | .bool b => let r := extractBool stream b; (!r.2.fail, .bool r.1)
  | .int v => let r := extractInt stream v; (!r.2.fail, .int r.1)
  | .uint v => let r := extractUnsigned UINT_MAX stream v; (!r.2.fail, .uint r.1)
  | .short v => let r := extractSigned SHRT_MIN SHRT_MAX stream v; (!r.2.fail, .short r.1)
  | .ushort v => let r := extractUnsigned USHRT_MAX stream v; (!r.2.fail, .ushort r.1)
  | .char c => let r := extractChar stream c; (!r.2.fail, .char r.1)
  | .uchar c => let r := extractChar stream c; (!r.2.fail, .uchar r.1)
  | .float x => let r := readFloat stream x; (!r.2.fail, .float r.1)
  | .string _ => (!stream.fail, .string value)
  | .other => (false, .other)

/-- The function `Parse::toString(type, value)`.  The insertion of a `float`
into a stream is the parameter `showFloat`. -/
def toString (showFloat : Int → Str) (value : Slot) : Str :=
  match value with
  | .bool b => if b then "1".toList else "0".toList
  | .int v => intText v
  | .uint v => intText v
  | .short v => intText v
  | .ushort v => intText v
  | .char c => [c]
  | .uchar c => [c]
  | .float x => showFloat x
  | .string s => s
  | .other => []

/-! ## Facts about the string primitives -/

theorem npos_eq : npos = 18446744073709551615 := by decide

theorem sizeAdd_npos_one : sizeAdd npos 1 = 0 := by decide

theorem sizeAdd_of_lt {a : Nat} (h : a + 1 < 2 ^ 64) : sizeAdd a 1 = a + 1 := by
  unfold sizeAdd
  exact Nat.mod_eq_of_lt h

theorem sizeAdd_one_le (a : Nat) : sizeAdd a 1 ≤ a + 1 := by
  unfold sizeAdd
  exact Nat.mod_le _ _

theorem length_takeWhile_le (p : Char → Bool) (s : Str) :
    (s.takeWhile p).length ≤ s.length := by
  have := congrArg List.length (List.takeWhile_append_dropWhile p s)
  rw [List.length_append] at this
  omega

theorem length_dropWhile_le (p : Char → Bool) (s : Str) :
    (s.dropWhile p).length ≤ s.length := by
  have := congrArg List.length (List.takeWhile_append_dropWhile p s)
  rw [List.length_append] at this
  omega

theorem drop_takeWhile_length (p : Char → Bool) (s : Str) :
    s.drop (s.takeWhile p).length = s.dropWhile p := by
  have := List.drop_left (s.takeWhile p) (s.dropWhile p)
  rwa [List.takeWhile_append_dropWhile] at this

theorem take_takeWhile_length (p : Char → Bool) (s : Str) :
    s.take (s.takeWhile p).length = s.takeWhile p := by
  have := List.take_left (s.takeWhile p) (s.dropWhile p)
  rwa [List.takeWhile_append_dropWhile] at this

theorem rdropWhile_append_rev (p : Char → Bool) (s : Str) :
    s.rdropWhile p ++ (s.reverse.takeWhile p).reverse = s := by
  have h := congrArg List.reverse (List.takeWhile_append_dropWhile p s.reverse)
  rw [List.reverse_append, List.reverse_reverse] at h
  exact h

theorem rdropWhile_eq_take (p : Char → Bool) (s : Str) :
    s.rdropWhile p = s.take (s.length - (s.reverse.takeWhile p).length) := by
  have hs := rdropWhile_append_rev p s
  have hlen : s.length - (s.reverse.takeWhile p).length = (s.rdropWhile p).length := by
    have := congrArg List.length hs
    rw [List.length_append, List.length_reverse] at this
    omega
  rw [hlen]
  have := List.take_left (s.rdropWhile p) (s.reverse.takeWhile p).reverse
  rw [hs] at this
  exact this.symm

/-- The first `erase` of `trim` removes the trailing delimiters. -/
theorem erase_last (s d : Str) (h : s.length < npos) :
    erase s (sizeAdd (find_last_not_of s d) 1) npos = some (s.rdropWhile (inSet d)) := by
  have hk := length_takeWhile_le (inSet d) s.reverse
  simp only [List.length_reverse] at hk
  rw [npos_eq] at h
  unfold find_last_not_of
  simp only
  by_cases hlt : (s.reverse.takeWhile (inSet d)).length < s.length
  · rw [if_pos hlt]
    have e : s.length - 1 - (s.reverse.takeWhile (inSet d)).length + 1
        = s.length - (s.reverse.takeWhile (inSet d)).length := by omega
    rw [sizeAdd_of_lt (by omega), e]
    unfold erase
    rw [if_neg (by omega), rdropWhile_eq_take]
    have : s.drop (s.length - (s.reverse.takeWhile (inSet d)).length +
        min npos (s.length - (s.length - (s.reverse.takeWhile (inSet d)).length))) = [] := by
      apply List.drop_of_length_le
      rw [npos_eq]
      omega
    rw [this, List.append_nil]
  · rw [if_neg hlt, sizeAdd_npos_one]
    unfold erase
    rw [if_neg (by omega), rdropWhile_eq_take]
    have hz : s.length - (s.reverse.takeWhile (inSet d)).length = 0 := by omega
    have : s.drop (0 + min npos (s.length - 0)) = [] := by
      apply List.drop_of_length_le
      rw [npos_eq]
      omega
    rw [this, hz]
    simp

/-- The second `erase` of `trim` removes the leading delimiters. -/
theorem erase_first (u d : Str) (h : u.length < npos) :
    erase u 0 (find_first_not_of u d) = some (u.dropWhile (inSet d)) := by
  have hk := length_takeWhile_le (inSet d) u
  rw [npos_eq] at h
  unfold find_first_not_of erase
  simp only
  rw [if_neg (by omega)]
  by_cases hlt : (u.takeWhile (inSet d)).length < u.length
  · rw [if_pos hlt]
    have : min (u.takeWhile (inSet d)).length (u.length - 0) = (u.takeWhile (inSet d)).length := by
      omega
    rw [this]
    simp [drop_takeWhile_length]
  · rw [if_neg hlt]
    have : min npos (u.length - 0) = (u.takeWhile (inSet d)).length := by
      rw [npos_eq]
      omega
    rw [this]
    simp [drop_takeWhile_length]

theorem length_rdropWhile_le (p : Char → Bool) (s : Str) :
    (s.rdropWhile p).length ≤ s.length := by
  rw [rdropWhile_eq_take]
  simp

/-- On a string shorter than `npos`, `trim` removes the trailing and then
the leading delimiters. -/
theorem trim_eq (s d : Str) (h : s.length < npos) :
    trim s d = some (trimmed s d) := by
  unfold trim trimmed
  rw [erase_last s d h]
  simp only [Option.bind_eq_bind, Option.some_bind]
  exact erase_first _ d (lt_of_le_of_lt (length_rdropWhile_le _ s) h)

theorem inSet_iff (d : Str) (c : Char) : inSet d c = true ↔ c ∈ d := by
  simp [inSet]

theorem trimmed_head (s d : Str) (c : Char) (h : (trimmed s d).head? = some c) : c ∉ d := by
  have := List.head?_dropWhile_not (inSet d) (s.rdropWhile (inSet d))
  unfold trimmed at h
  rw [h] at this
  intro hc
  rw [← inSet_iff] at hc
  simp [hc] at this

theorem getLast?_append_right (a b : Str) (hb : b ≠ []) :
    (a ++ b).getLast? = b.getLast? := by
  rw [List.getLast?_eq_getLast _ hb, List.getLast?_eq_getLast _ (by simp [hb])]
  rw [List.getLast_append_of_ne_nil hb]

theorem trimmed_getLast (s d : Str) (c : Char) (h : (trimmed s d).getLast? = some c) :
    c ∉ d := by
  have hne : trimmed s d ≠ [] := by
    intro h0
    rw [h0] at h
    simp at h
  have hsplit := List.takeWhile_append_dropWhile (inSet d) (s.rdropWhile (inSet d))
  have hu : s.rdropWhile (inSet d) ≠ [] := by
    intro h0
    apply hne
    unfold trimmed
    rw [h0]
    rfl
  have hl := List.rdropWhile_last_not (inSet d) s hu
  have e : (s.rdropWhile (inSet d)).getLast? = (trimmed s d).getLast? := by
    conv_lhs => rw [← hsplit]
    exact getLast?_append_right _ _ hne
  rw [List.getLast?_eq_getLast _ hu, h] at e
  have e2 : (s.rdropWhile (inSet d)).getLast hu = c := by
    simpa using e
  rw [e2] at hl
  intro hc
  exact hl ((inSet_iff d c).2 hc)

theorem trimmed_decompose (s d : Str) :
    s = (s.rdropWhile (inSet d)).takeWhile (inSet d) ++ trimmed s d
      ++ (s.reverse.takeWhile (inSet d)).reverse := by
  unfold trimmed
  rw [List.takeWhile_append_dropWhile, rdropWhile_append_rev]

theorem trimmed_length_le (s d : Str) : (trimmed s d).length ≤ s.length :=
  le_trans (length_dropWhile_le _ _) (length_rdropWhile_le _ _)

theorem trimmed_idem (s d : Str) : trimmed (trimmed s d) d = trimmed s d := by
  have key : (trimmed s d).rdropWhile (inSet d) = trimmed s d := by
    rw [List.rdropWhile_eq_self_iff]
    intro hl hp
    have := trimmed_getLast s d _ (List.getLast?_eq_getLast _ hl)
    exact this ((inSet_iff d _).1 hp)
  show ((trimmed s d).rdropWhile (inSet d)).dropWhile (inSet d) = trimmed s d
  rw [key]
  exact List.dropWhile_idempotent _ _

/-- The function `trim` returns a value on every string: neither `erase` is called with a
start position beyond the end. -/
theorem trim_total (s d : Str) : ∃ t, trim s d = some t := by
  have h1 : sizeAdd (find_last_not_of s d) 1 ≤ s.length := by
    unfold find_last_not_of
    simp only
    split
    · exact le_trans (sizeAdd_one_le _) (by omega)
    · rw [sizeAdd_npos_one]
      omega
  unfold trim erase
  rw [if_neg (by omega)]
  simp only [Option.bind_eq_bind, Option.some_bind]
  rw [if_neg (by omega)]
  exact ⟨_, rfl⟩

/-! ## Claims about `trim` -/

/-- C9: `trim` is idempotent: trimming the result of `trim(s, d)` again with
the same delimiters returns that result unchanged. -/
theorem trim_idempotent (s d : Str) (h : s.length < npos) :
    (trim s d).bind (fun t => trim t d) = trim s d := by
  rw [trim_eq s d h]
  simp only [Option.some_bind]
  rw [trim_eq _ d (lt_of_le_of_lt (trimmed_length_le s d) h)]
  exact congrArg some (trimmed_idem s d)

theorem trim_idempotent_witness :
    ("  a b \t".toList).length < npos ∧
      (trim "  a b \t".toList " \t".toList).bind (fun t => trim t " \t".toList)
        = trim "  a b \t".toList " \t".toList :=
  ⟨by decide, trim_idempotent _ _ (by decide)⟩

/-- C10: `trim(s, d)` is `s` without its longest prefix and longest suffix of
delimiters: `s = p ++ t ++ q` with `t` the result, every character of `p` and
of `q` in `d`, the first and the last character of `t` (when there are any)
not in `d`, and `t` empty when every character of `s` is in `d`. -/
theorem trim_strips_delimiters (s d : Str) (h : s.length < npos) :
    ∃ p t q, trim s d = some t ∧ s = p ++ t ++ q ∧
      (∀ c ∈ p, c ∈ d) ∧ (∀ c ∈ q, c ∈ d) ∧
      (∀ c, t.head? = some c → c ∉ d) ∧ (∀ c, t.getLast? = some c → c ∉ d) ∧
      ((∀ c ∈ s, c ∈ d) → t = []) := by
  refine ⟨(s.rdropWhile (inSet d)).takeWhile (inSet d), trimmed s d,
    (s.reverse.takeWhile (inSet d)).reverse, trim_eq s d h, trimmed_decompose s d,
    ?_, ?_, trimmed_head s d, trimmed_getLast s d, ?_⟩
  · intro c hc
    exact (inSet_iff d c).1 (List.mem_takeWhile_imp hc)
  · intro c hc
    exact (inSet_iff d c).1 (List.mem_takeWhile_imp (List.mem_reverse.1 hc))
  · intro hall
    have : s.rdropWhile (inSet d) = [] := by
      rw [List.rdropWhile_eq_nil_iff]
      intro x hx
      exact (inSet_iff d x).2 (hall x hx)
    unfold trimmed
    rw [this]
    rfl

theorem trim_strips_delimiters_witness :
    ("\t x=1  ".toList).length < npos ∧
    ∃ p t q, trim "\t x=1  ".toList " \t".toList = some t ∧ "\t x=1  ".toList = p ++ t ++ q ∧
      (∀ c ∈ p, c ∈ " \t".toList) ∧ (∀ c ∈ q, c ∈ " \t".toList) ∧
      (∀ c, t.head? = some c → c ∉ " \t".toList) ∧
      (∀ c, t.getLast? = some c → c ∉ " \t".toList) ∧
      ((∀ c ∈ "\t x=1  ".toList, c ∈ " \t".toList) → t = []) :=
  ⟨by decide, trim_strips_delimiters _ _ (by decide)⟩

/-! ## Facts about `popFirstString` -/

theorem takeWhile_and_length (p q : Char → Bool) (s : Str) :
    (s.takeWhile (fun x => p x && q x)).length
      = min (s.takeWhile p).length (s.takeWhile q).length := by
  induction s with
  | nil => rfl
  | cons x xs ih =>
    simp only [List.takeWhile_cons]
    cases hp : p x <;> cases hq : q x <;> simp [ih, Nat.add_min_add_right]

theorem notSep_default (c : Char) :
    (!isSeparator (Char.ofNat 0) c) = (c != ',' && c != ';') := by
  unfold isSeparator
  by_cases h1 : c = ',' <;> by_cases h2 : c = ';' <;> simp [h1, h2]

theorem notSep_explicit (sep c : Char) (h : sep ≠ Char.ofNat 0) :
    (!isSeparator sep c) = (c != sep) := by
  unfold isSeparator
  by_cases h1 : c = sep <;> simp [h, h1]

/-- The split position computed by `popFirstString` is the index of the
first separator character, or `npos`. -/
theorem seppos_eq (s : Str) (sep : Char) (h : s.length < npos) :
    (if sep = Char.ofNat 0 then
        let seppos := find_first_of s ','
        let alt_seppos := find_first_of s ';'
        if alt_seppos ≠ npos ∧ alt_seppos < seppos then alt_seppos else seppos
      else find_first_of s sep)
    = if (s.takeWhile (fun x => !isSeparator sep x)).length < s.length
      then (s.takeWhile (fun x => !isSeparator sep x)).length else npos := by
  by_cases h0 : sep = Char.ofNat 0
  · subst h0
    rw [if_pos rfl]
    have e : (fun x => !isSeparator (Char.ofNat 0) x) = (fun c => c != ',' && c != ';') :=
      funext notSep_default
    rw [e, takeWhile_and_length]
    unfold find_first_of
    simp only
    have h1 := length_takeWhile_le (fun x => x != ',') s
    have h2 := length_takeWhile_le (fun x => x != ';') s
    generalize (s.takeWhile (fun x => x != ',')).length = k1 at *
    generalize (s.takeWhile (fun x => x != ';')).length = k2 at *
    rw [npos_eq] at *
    split_ifs <;> omega
  · rw [if_neg h0]
    have e : (fun x => !isSeparator sep x) = (fun c => c != sep) :=
      funext (fun c => notSep_explicit sep c h0)
    rw [e]
    rfl

theorem popFirstString_eq (s : Str) (sep : Char) (h : s.length < npos) :
    popFirstString s sep =
      if (s.takeWhile (fun x => !isSeparator sep x)).length < s.length
      then some (s.takeWhile (fun x => !isSeparator sep x),
                 (s.dropWhile (fun x => !isSeparator sep x)).drop 1)
      else some (s, []) := by
  unfold popFirstString
  simp only
  rw [seppos_eq s sep h]
  have hk := length_takeWhile_le (fun x => !isSeparator sep x) s
  rw [npos_eq] at h
  by_cases hlt : (s.takeWhile (fun x => !isSeparator sep x)).length < s.length
  · rw [if_pos hlt, if_pos hlt, if_neg (by rw [npos_eq]; omega)]
    rw [sizeAdd_of_lt (by omega)]
    unfold substr
    rw [if_neg (by omega), if_neg (by omega)]
    simp only [Option.bind_eq_bind, Option.some_bind, List.drop_zero,
      take_takeWhile_length]
    rw [List.take_of_length_le (by simp)]
    rw [← drop_takeWhile_length, List.drop_drop]
    simp [Nat.add_comm]
  · rw [if_neg hlt, if_neg hlt, if_pos rfl]

theorem pop_nosep (s : Str) (sep : Char) (h : s.length < npos)
    (hs : ∀ x ∈ s, isSeparator sep x = false) : popFirstString s sep = some (s, []) := by
  rw [popFirstString_eq s sep h]
  have : s.takeWhile (fun x => !isSeparator sep x) = s := by
    rw [List.takeWhile_eq_self_iff]
    intro x hx
    simp [hs x hx]
  rw [this, if_neg (lt_irrefl _)]

theorem pop_split (t r : Str) (c sep : Char) (h : (t ++ c :: r).length < npos)
    (ht : ∀ x ∈ t, isSeparator sep x = false) (hc : isSeparator sep c = true) :
    popFirstString (t ++ c :: r) sep = some (t, r) := by
  rw [popFirstString_eq _ sep h]
  have e1 : (t ++ c :: r).takeWhile (fun x => !isSeparator sep x) = t := by
    rw [List.takeWhile_append_of_pos (by intro x hx; simp [ht x hx])]
    simp [List.takeWhile_cons, hc]
  have e2 : (t ++ c :: r).dropWhile (fun x => !isSeparator sep x) = c :: r := by
    rw [List.dropWhile_append_of_pos (by intro x hx; simp [ht x hx])]
    simp [List.dropWhile_cons, hc]
  rw [e1, e2, if_pos (by simp)]
  rfl

/-! ## Claims about `popFirstString` -/

/-- C6: when `s` holds no separator character, `popFirstString` returns `s`
and leaves the empty string; otherwise it returns the prefix `tok` before the
first separator character `c`, `tok` holds no separator character, and
`tok`, `c` and the string left behind make up `s`. -/
theorem popFirstString_splits_at_first_separator (s : Str) (sep : Char)
    (h : s.length < npos) :
    ((∀ x ∈ s, isSeparator sep x = false) → popFirstString s sep = some (s, [])) ∧
    ((∃ x ∈ s, isSeparator sep x = true) →
      ∃ tok c rest, popFirstString s sep = some (tok, rest) ∧ isSeparator sep c = true ∧
        (∀ x ∈ tok, isSeparator sep x = false) ∧ s = tok ++ c :: rest) := by
  refine ⟨pop_nosep s sep h, ?_⟩
  rintro ⟨x, hx, hsep⟩
  have hsplit := List.takeWhile_append_dropWhile (fun x => !isSeparator sep x) s
  have htok : ∀ y ∈ s.takeWhile (fun x => !isSeparator sep x), isSeparator sep y = false := by
    intro y hy
    simpa using List.mem_takeWhile_imp hy
  cases hd : s.dropWhile (fun x => !isSeparator sep x) with
  | nil =>
    rw [List.dropWhile_eq_nil_iff] at hd
    have := hd x hx
    simp [hsep] at this
  | cons c rest =>
    have hc : isSeparator sep c = true := by
      have := List.head?_dropWhile_not (fun x => !isSeparator sep x) s
      rw [hd] at this
      simpa using this
    rw [hd] at hsplit
    refine ⟨_, c, rest, ?_, hc, htok, hsplit.symm⟩
    have := pop_split _ rest c sep (by rw [hsplit]; exact h) htok hc
    rwa [hsplit] at this

theorem popFirstString_splits_at_first_separator_witness :
    ("1;2,3".toList).length < npos ∧
    ((∀ x ∈ "1;2,3".toList, isSeparator (Char.ofNat 0) x = false) →
      popFirstString "1;2,3".toList (Char.ofNat 0) = some ("1;2,3".toList, [])) ∧
    ((∃ x ∈ "1;2,3".toList, isSeparator (Char.ofNat 0) x = true) →
      ∃ tok c rest, popFirstString "1;2,3".toList (Char.ofNat 0) = some (tok, rest) ∧
        isSeparator (Char.ofNat 0) c = true ∧
        (∀ x ∈ tok, isSeparator (Char.ofNat 0) x = false) ∧
        "1;2,3".toList = tok ++ c :: rest) :=
  ⟨by decide, popFirstString_splits_at_first_separator _ _ (by decide)⟩

theorem length_joinTokens_tail (t u : Str) (c : Char) (rest : List (Char × Str)) :
    (joinTokens u rest).length ≤ (joinTokens t ((c, u) :: rest)).length := by
  show _ ≤ (t ++ c :: joinTokens u rest).length
  simp
  omega

/-- C7: for tokens without `,` and `;`, joined by separators that are each
`,` or `;`, as many calls of `popFirstString` as there are tokens return the
tokens in order and leave the empty string. -/
theorem popFirstString_repeated (t : Str) (rest : List (Char × Str))
    (hlen : (joinTokens t rest).length < npos)
    (ht : ∀ x ∈ t, x ≠ ',' ∧ x ≠ ';')
    (hrest : ∀ p ∈ rest, (p.1 = ',' ∨ p.1 = ';') ∧ ∀ x ∈ p.2, x ≠ ',' ∧ x ≠ ';') :
    popRepeat (rest.length + 1) (joinTokens t rest)
      = some (t :: rest.map Prod.snd, []) := by
  induction rest generalizing t with
  | nil =>
    have h1 : popFirstString t (Char.ofNat 0) = some (t, []) := by
      apply pop_nosep t _ hlen
      intro x hx
      have := ht x hx
      simp [isSeparator, this.1, this.2]
    simp [popRepeat, joinTokens, h1]
  | cons p rest ih =>
    obtain ⟨c, u⟩ := p
    have hp := hrest (c, u) (List.mem_cons_self _ _)
    have h1 : popFirstString (t ++ c :: joinTokens u rest) (Char.ofNat 0)
        = some (t, joinTokens u rest) := by
      apply pop_split t _ c _ hlen
      · intro x hx
        have := ht x hx
        simp [isSeparator, this.1, this.2]
      · simpa [isSeparator] using hp.1
    have h2 := ih u (lt_of_le_of_lt (length_joinTokens_tail t u c rest) hlen) hp.2
      (fun q hq => hrest q (List.mem_cons_of_mem _ hq))
    show popRepeat (rest.length + 1 + 1) (t ++ c :: joinTokens u rest) = _
    rw [popRepeat, h1]
    simp only [Option.bind_eq_bind, Option.some_bind]
    rw [h2]
    rfl

theorem popFirstString_repeated_witness :
    (joinTokens "1".toList [(',', "2".toList), (',', "3".toList)]).length < npos ∧
    (∀ x ∈ "1".toList, x ≠ ',' ∧ x ≠ ';') ∧
    (∀ p ∈ [(',', "2".toList), (',', "3".toList)],
      (p.1 = ',' ∨ p.1 = ';') ∧ ∀ x ∈ p.2, x ≠ ',' ∧ x ≠ ';') ∧
    popRepeat 3 "1,2,3".toList = some (["1".toList, "2".toList, "3".toList], []) :=
  ⟨by decide, by decide, by decide,
    popFirstString_repeated "1".toList [(',', "2".toList), (',', "3".toList)]
      (by decide) (by decide) (by decide)⟩

/-! ## Facts about `getKeyPair` -/

theorem takeWhile_ne_of_not_mem (s : Str) (c : Char) (h : c ∉ s) :
    s.takeWhile (fun x => x != c) = s := by
  rw [List.takeWhile_eq_self_iff]
  intro x hx
  have : x ≠ c := fun e => h (e ▸ hx)
  simp [this]

theorem find_first_of_absent (s : Str) (c : Char) (h : c ∉ s) : find_first_of s c = npos := by
  unfold find_first_of
  simp only
  rw [takeWhile_ne_of_not_mem s c h, if_neg (lt_irrefl _)]

theorem find_first_of_split (pre post : Str) (c : Char) (h : c ∉ pre) :
    find_first_of (pre ++ c :: post) c = pre.length := by
  unfold find_first_of
  simp only
  have e : (pre ++ c :: post).takeWhile (fun x => x != c) = pre := by
    rw [List.takeWhile_append_of_pos]
    · simp [List.takeWhile_cons]
    · intro x hx
      have : x ≠ c := fun e => h (e ▸ hx)
      simp [this]
  rw [e, if_pos (by simp)]

theorem substr_front (pre post : Str) :
    substr (pre ++ post) 0 pre.length = some pre := by
  unfold substr
  rw [if_neg (by omega)]
  simp

theorem substr_back (pre post : Str) (c : Char) (h : (pre ++ c :: post).length < npos) :
    substr (pre ++ c :: post) (sizeAdd pre.length 1) (pre ++ c :: post).length = some post := by
  rw [npos_eq] at h
  simp only [List.length_append, List.length_cons] at h
  rw [sizeAdd_of_lt (by omega)]
  unfold substr
  rw [if_neg (by simp)]
  have : (pre ++ c :: post).drop (pre.length + 1) = post := by
    rw [← List.drop_drop, List.drop_left]
    rfl
  rw [this, List.take_of_length_le (by simp; omega)]

theorem not_mem_trimmed (s d : Str) (c : Char) (h : c ∉ s) : c ∉ trimmed s d := by
  intro hc
  apply h
  rw [trimmed_decompose s d]
  simp [hc]

/-! ## Claim about `getKeyPair` -/

/-- C8: on a line without `=`, `getKeyPair` sets key and value to the empty
string; on a line `pre ++ "=" ++ post` with no `=` in `pre`, the key is
`trim(pre)` and the value is `trim(post)`, the key holds no `=`, and neither
starts or ends with a delimiter of `trim`; the line `a=b` gives the key `a`
and the value `b`, the line `novalue` two empty strings. -/
theorem getKeyPair_splits_at_first_equals (ws s : Str) (h : s.length < npos) :
    ('=' ∉ s → getKeyPair ws s = some ([], [])) ∧
    (∀ pre post, '=' ∉ pre → s = pre ++ '=' :: post →
      ∃ key val, getKeyPair ws s = some (key, val) ∧
        trim pre ws = some key ∧ trim post ws = some val ∧ '=' ∉ key ∧
        (∀ c, key.head? = some c → c ∉ ws) ∧ (∀ c, key.getLast? = some c → c ∉ ws) ∧
        (∀ c, val.head? = some c → c ∉ ws) ∧
        (∀ c, val.getLast? = some c → c ∉ ws)) ∧
    getKeyPair defaultDelimiters "a=b".toList = some ("a".toList, "b".toList) ∧
    getKeyPair defaultDelimiters "novalue".toList = some ([], []) := by
  refine ⟨?_, ?_, by decide, by decide⟩
  · intro hno
    unfold getKeyPair
    simp only
    rw [find_first_of_absent s '=' hno, if_pos rfl]
  · intro pre post hpre hs
    subst hs
    have hlen := h
    rw [npos_eq] at hlen
    simp only [List.length_append, List.length_cons] at hlen
    have hpreLen : pre.length < npos := by rw [npos_eq]; omega
    have hpostLen : post.length < npos := by rw [npos_eq]; omega
    refine ⟨trimmed pre ws, trimmed post ws, ?_, trim_eq pre ws hpreLen,
      trim_eq post ws hpostLen, not_mem_trimmed pre ws '=' hpre,
      trimmed_head pre ws, trimmed_getLast pre ws, trimmed_head post ws,
      trimmed_getLast post ws⟩
    unfold getKeyPair
    simp only
    rw [find_first_of_split pre post '=' hpre, if_neg (by rw [npos_eq]; omega),
      substr_front pre ('=' :: post), substr_back pre post '=' h]
    simp only [Option.bind_eq_bind, Option.some_bind]
    rw [trim_eq pre ws hpreLen, trim_eq post ws hpostLen]
    rfl

theorem getKeyPair_splits_at_first_equals_witness :
    ("a=b".toList).length < npos ∧
    ('=' ∉ "a=b".toList → getKeyPair " \t".toList "a=b".toList = some ([], [])) ∧
    (∀ pre post, '=' ∉ pre → "a=b".toList = pre ++ '=' :: post →
      ∃ key val, getKeyPair " \t".toList "a=b".toList = some (key, val) ∧
        trim pre " \t".toList = some key ∧ trim post " \t".toList = some val ∧ '=' ∉ key ∧
        (∀ c, key.head? = some c → c ∉ " \t".toList) ∧
        (∀ c, key.getLast? = some c → c ∉ " \t".toList) ∧
        (∀ c, val.head? = some c → c ∉ " \t".toList) ∧
        (∀ c, val.getLast? = some c → c ∉ " \t".toList)) ∧
    getKeyPair defaultDelimiters "a=b".toList = some ("a".toList, "b".toList) ∧
    getKeyPair defaultDelimiters "novalue".toList = some ([], []) :=
  ⟨by decide, getKeyPair_splits_at_first_equals _ _ (by decide)⟩

/-! ## Facts about `toBool` -/

theorem tolower_tolower (c : Char) : tolower (tolower c) = tolower c := by
  by_cases h : 65 ≤ c.toNat ∧ c.toNat ≤ 90
  · have e : tolower c = Char.ofNat (c.toNat + 32) := by
      unfold tolower
      rw [if_pos h]
    rw [e]
    obtain ⟨h1, h2⟩ := h
    generalize c.toNat = n at h1 h2
    interval_cases n <;> rfl
  · have e : tolower c = c := by
      unfold tolower
      rw [if_neg h]
    rw [e, e]

theorem map_tolower_idem (s : Str) : (s.map tolower).map tolower = s.map tolower := by
  rw [List.map_map]
  apply List.map_congr_left
  intro c _
  exact tolower_tolower c

/-- The function `toBool` always returns, and its value is `true` exactly when the
lower-cased text, untrimmed, is one of the three accepted tokens. -/
theorem toBool_eq (ws value : Str) :
    toBool ws value = some (decide (value.map tolower = "true".toList ∨
      value.map tolower = "yes".toList ∨ value.map tolower = "1".toList)) := by
  obtain ⟨t, ht⟩ := trim_total value ws
  unfold toBool
  rw [ht]
  simp only [Option.bind_eq_bind, Option.some_bind]
  generalize value.map tolower = v
  generalize "true".toList = a
  generalize "yes".toList = b
  generalize "1".toList = c
  split_ifs <;> simp_all [pure]

/-! ## Claims about `toBool` -/

/-- C4 (evaluation of the code): `toBool` does not use the result of `trim`.
On the text `" true "`, which `trim` turns into the token `"true"`, it returns
`false`, whatever the delimiters of `trim` are. -/
theorem toBool_ignores_trim (ws : Str) :
    toBool ws " true ".toList = some false ∧
      trim " true ".toList defaultDelimiters = some "true".toList := by
  constructor
  · rw [toBool_eq]
    decide
  · decide

/-- C5: `toBool` is case-insensitive: a text and its lower-cased form give
the same result; `"YES"` gives `true` and `"maybe"` gives `false`. -/
theorem toBool_case_insensitive (ws s : Str) :
    toBool ws s = toBool ws (s.map tolower) ∧
      toBool ws "YES".toList = some true ∧ toBool ws "maybe".toList = some false := by
  refine ⟨?_, ?_, ?_⟩
  · rw [toBool_eq, toBool_eq, map_tolower_idem]
  · rw [toBool_eq]
    decide
  · rw [toBool_eq]
    decide

/-! ## Facts about decimal text and extraction -/

theorem digitChar_toNat (k : Nat) (h : k < 10) : (digitChar k).toNat = 48 + k := by
  interval_cases k <;> rfl

theorem isdigit_digitChar (k : Nat) (h : k < 10) : isdigit (digitChar k) = true := by
  interval_cases k <;> rfl

theorem natDigits_isdigit (f n : Nat) (acc : Str) (hacc : ∀ c ∈ acc, isdigit c = true) :
    ∀ c ∈ natDigits f n acc, isdigit c = true := by
  induction f generalizing n acc with
  | zero => exact hacc
  | succ f ih =>
    rw [natDigits]
    split
    · intro c hc
      rcases List.mem_cons.1 hc with rfl | hc
      · exact isdigit_digitChar n (by assumption)
      · exact hacc c hc
    · apply ih
      intro c hc
      rcases List.mem_cons.1 hc with rfl | hc
      · exact isdigit_digitChar _ (Nat.mod_lt _ (by decide))
      · exact hacc c hc

theorem natDigits_ne_nil (f n : Nat) (acc : Str) (hacc : acc ≠ []) :
    natDigits f n acc ≠ [] := by
  induction f generalizing n acc with
  | zero => exact hacc
  | succ f ih =>
    rw [natDigits]
    split
    · simp
    · exact ih _ _ (by simp)

theorem natText_ne_nil (n : Nat) : natText n ≠ [] := by
  unfold natText
  rw [natDigits]
  split
  · simp
  · exact natDigits_ne_nil _ _ _ (by simp)

theorem natText_isdigit (n : Nat) : ∀ c ∈ natText n, isdigit c = true :=
  natDigits_isdigit _ _ _ (by simp)

theorem foldl_natDigits (f n : Nat) (acc : Str) (h : n < f) :
    (natDigits f n acc).foldl (fun a c => 10 * a + (c.toNat - 48)) 0
      = acc.foldl (fun a c => 10 * a + (c.toNat - 48)) n := by
  induction f generalizing n acc with
  | zero => omega
  | succ f ih =>
    rw [natDigits]
    split
    · rename_i hlt
      simp only [List.foldl_cons, digitChar_toNat n hlt]
      congr 1
      omega
    · rename_i hge
      rw [ih (n / 10) _ (by omega)]
      simp only [List.foldl_cons, digitChar_toNat _ (Nat.mod_lt n (by decide))]
      congr 1
      omega

theorem digitsValue_natText (n : Nat) : digitsValue (natText n) = n := by
  unfold digitsValue natText
  rw [foldl_natDigits _ _ _ (by omega)]
  rfl

theorem takeWhile_append_stop (p : Char → Bool) (a rest : Str) (ha : ∀ c ∈ a, p c = true)
    (hr : ∀ c, rest.head? = some c → p c = false) :
    (a ++ rest).takeWhile p = a ∧ (a ++ rest).dropWhile p = rest := by
  rw [List.takeWhile_append_of_pos ha, List.dropWhile_append_of_pos ha]
  cases rest with
  | nil => simp
  | cons c cs =>
    have := hr c rfl
    simp [List.takeWhile_cons, List.dropWhile_cons, this]

theorem isdigit_not_space (c : Char) (h : isdigit c = true) :
    isspace c = false ∧ c ≠ '-' ∧ c ≠ '+' := by
  refine ⟨?_, ?_, ?_⟩
  · cases hs : isspace c with
    | false => rfl
    | true =>
      exfalso
      simp only [isspace, decide_eq_true_eq] at hs
      rcases hs with rfl | rfl | rfl | rfl | rfl | rfl <;> revert h <;> decide
  · rintro rfl
    revert h
    decide
  · rintro rfl
    revert h
    decide

/-- Extraction reads back the decimal text of an `int`, and stops in front
of the first character that is not a digit. -/
theorem extractInt_intText_any (v old : Int) (rest : Str)
    (hr : ∀ c, rest.head? = some c → isdigit c = false) :
    extractInt ⟨intText v ++ rest, false⟩ old =
      if v < INT_MIN then (INT_MIN, ⟨rest, true⟩)
      else if INT_MAX < v then (INT_MAX, ⟨rest, true⟩)
      else (v, ⟨rest, false⟩) := by
  have hsplit := takeWhile_append_stop isdigit (natText v.natAbs) rest
    (natText_isdigit v.natAbs) hr
  obtain ⟨d, ds, hd⟩ := List.exists_cons_of_ne_nil (natText_ne_nil v.natAbs)
  have hdig : isdigit d = true := natText_isdigit v.natAbs d (by rw [hd]; simp)
  obtain ⟨hd1, hd2, hd3⟩ := isdigit_not_space d hdig
  unfold extractInt
  simp only [Bool.false_eq_true, if_false]
  by_cases hneg : v < 0
  · have e : intText v ++ rest = '-' :: (natText v.natAbs ++ rest) := by
      unfold intText
      rw [if_pos hneg]
      rfl
    have hdrop : (intText v ++ rest).dropWhile isspace = '-' :: (natText v.natAbs ++ rest) := by
      rw [e, List.dropWhile_cons]
      rfl
    rw [hdrop]
    simp only [true_or, if_true, hsplit.1, hsplit.2, digitsValue_natText]
    rw [if_neg (natText_ne_nil _)]
    have hv : -((v.natAbs : Nat) : Int) = v := by omega
    rw [hv]
  · have e : intText v ++ rest = d :: (ds ++ rest) := by
      unfold intText
      rw [if_neg hneg, hd]
      rfl
    have hdrop : (intText v ++ rest).dropWhile isspace = d :: (ds ++ rest) := by
      rw [e, List.dropWhile_cons, hd1]
      rfl
    have hbody : d :: (ds ++ rest) = natText v.natAbs ++ rest := by
      rw [hd]
      rfl
    rw [hdrop]
    simp only [hd2, hd3, or_self, if_false]
    rw [hbody]
    simp only [hsplit.1, hsplit.2, digitsValue_natText]
    rw [if_neg (natText_ne_nil _)]
    have hv : ((v.natAbs : Nat) : Int) = v := by omega
    rw [hv]

theorem extractInt_intText (v old : Int) (rest : Str) (hlo : INT_MIN ≤ v) (hhi : v ≤ INT_MAX)
    (hr : ∀ c, rest.head? = some c → isdigit c = false) :
    extractInt ⟨intText v ++ rest, false⟩ old = (v, ⟨rest, false⟩) := by
  rw [extractInt_intText_any v old rest hr, if_neg (by omega), if_neg (by omega)]

/-- After a failed extraction of the number the suffix stays empty, and the
millisecond branch is taken. -/
theorem toDuration_of_failed (fps val : Int) (s rest : Str)
    (h : extractInt ⟨s, false⟩ 0 = (val, ⟨rest, true⟩)) (hval : val ≠ 0) :
    toDuration fps s = max 1 (f32toInt (floorf (f32add
      (f32div (f32ofInt (wrapInt (val * fps))) f32thousand) f32half))) := by
  have hw : extractWord ⟨rest, true⟩ [] = ([], ⟨rest, true⟩) := rfl
  have hs : ¬ (([] : Str) = "s".toList) := by decide
  unfold toDuration
  simp only [h, hw, if_neg hval, if_neg hs]
  split <;> omega

theorem wrapInt_of_range (z : Int) (hlo : INT_MIN ≤ z) (hhi : z ≤ INT_MAX) : wrapInt z = z := by
  unfold INT_MIN at hlo
  unfold INT_MAX at hhi
  unfold wrapInt
  omega

/-! ## Claims about `toDuration` -/

/-- C1: `toDuration` returns `0` exactly when the integer extracted from the
text is `0`, whatever follows it, and a value of at least `1` when that
integer is not `0`. -/
theorem toDuration_zero_or_positive (fps : Int) (s : Str) :
    (toDuration fps s = 0 ↔ (extractInt ⟨s, false⟩ 0).1 = 0) ∧
      ((extractInt ⟨s, false⟩ 0).1 = 0 ∨ 1 ≤ toDuration fps s) := by
  unfold toDuration
  simp only
  split
  · rename_i h
    exact ⟨⟨fun _ => h, fun _ => h⟩, Or.inl h⟩
  · rename_i h
    constructor
    · constructor
      · intro h0
        split at h0 <;> omega
      · intro h0
        exact absurd h0 h
    · right
      split <;> omega

/-- C3: for a non-zero integer `v` whose product with `fps` is in the `int`
range, `toDuration` of the decimal text of `v` followed by `s` is
`max(1, v * fps)`; at 60 frames per second `1s` gives 60. -/
theorem toDuration_seconds (v fps : Int) (hv : v ≠ 0)
    (hplo : INT_MIN ≤ v * fps) (hphi : v * fps ≤ INT_MAX) :
    toDuration fps (intText v ++ "s".toList) = max 1 (v * fps) ∧
      toDuration 60 "1s".toList = 60 := by
  refine ⟨?_, by decide⟩
  have hany := extractInt_intText_any v 0 "s".toList (by decide)
  unfold INT_MIN at hplo
  unfold INT_MAX at hphi
  by_cases hlo : v < INT_MIN
  · -- the text overflows downwards: the product is in range only for `fps = 0`
    rw [if_pos hlo] at hany
    unfold INT_MIN at hlo
    have hfps : fps = 0 := by
      rcases lt_trichotomy fps 0 with hneg | hz | hpos
      · have := mul_le_mul_of_nonpos_left (show fps ≤ -1 by omega) (show v ≤ 0 by omega)
        omega
      · exact hz
      · have := mul_le_mul_of_nonpos_left (show 1 ≤ fps by omega) (show v ≤ 0 by omega)
        omega
    subst hfps
    rw [toDuration_of_failed 0 INT_MIN _ _ hany (by decide)]
    simp only [Int.mul_zero]
    set_option maxRecDepth 100000 in decide
  · by_cases hhi : INT_MAX < v
    · -- the text overflows upwards: the product is in range only for `fps` 0 or -1
      rw [if_neg hlo, if_pos hhi] at hany
      unfold INT_MAX at hhi
      have hfps : fps = 0 ∨ fps = -1 := by
        rcases lt_trichotomy fps 0 with hneg | hz | hpos
        · right
          by_contra hne
          have := mul_le_mul_of_nonneg_left (show fps ≤ -2 by omega) (show 0 ≤ v by omega)
          omega
        · exact Or.inl hz
        · have := mul_le_mul_of_nonneg_left (show 1 ≤ fps by omega) (show 0 ≤ v by omega)
          omega
      rcases hfps with rfl | rfl
      · rw [toDuration_of_failed 0 INT_MAX _ _ hany (by decide)]
        simp only [Int.mul_zero]
        set_option maxRecDepth 100000 in decide
      · rw [toDuration_of_failed (-1) INT_MAX _ _ hany (by decide)]
        have e : max 1 (v * -1) = 1 := by omega
        rw [e]
        set_option maxRecDepth 100000 in decide
    · have h1 := extractInt_intText v 0 "s".toList (by omega) (by omega) (by decide)
      unfold toDuration
      simp only [h1]
      have h2 : extractWord ⟨"s".toList, false⟩ [] = ("s".toList, ⟨[], false⟩) := by decide
      rw [h2]
      simp only [if_neg hv, if_true]
      rw [wrapInt_of_range _ (by unfold INT_MIN; omega) (by unfold INT_MAX; omega)]
      split <;> omega

theorem toDuration_seconds_witness :
    (-3 : Int) ≠ 0 ∧ INT_MIN ≤ -3 * 60 ∧ (-3 : Int) * 60 ≤ INT_MAX ∧
      toDuration 60 (intText (-3) ++ "s".toList) = max 1 (-3 * 60) ∧
      toDuration 60 "1s".toList = 60 :=
  ⟨by decide, by decide, by decide,
    toDuration_seconds (-3) 60 (by decide) (by decide) (by decide)⟩

/-! ## Facts about single precision rounding -/

theorem log2Fuel_eq_log (f n : Nat) (h : n ≤ f) : log2Fuel f n = Nat.log 2 n := by
  induction f generalizing n with
  | zero =>
    have : n = 0 := by omega
    subst this
    simp [log2Fuel]
  | succ f ih =>
    rw [log2Fuel]
    split
    · rename_i h2
      rw [ih (n / 2) (by omega), Nat.log_of_one_lt_of_le (by decide) h2]
    · rename_i h2
      rw [Nat.log_of_lt (by omega)]

theorem ilog2_eq_log (n : Nat) : ilog2 n = Nat.log 2 n :=
  log2Fuel_eq_log n n (le_refl n)

theorem ilog2_mono {a b : Nat} (h : a ≤ b) : ilog2 a ≤ ilog2 b := by
  rw [ilog2_eq_log, ilog2_eq_log]
  exact Nat.log_mono_right h

theorem pow_ilog2_le {n : Nat} (h : n ≠ 0) : 2 ^ ilog2 n ≤ n := by
  rw [ilog2_eq_log]
  exact Nat.pow_log_le_self 2 h

theorem lt_pow_ilog2 (n : Nat) : n < 2 ^ (ilog2 n + 1) := by
  rw [ilog2_eq_log]
  exact Nat.lt_pow_succ_log_self (by decide) n

theorem ilog2_lt_of_lt_pow {n e : Nat} (h : n < 2 ^ e) (hn : n ≠ 0) : ilog2 n < e := by
  rw [ilog2_eq_log]
  exact Nat.log_lt_of_lt_pow hn h

theorem rne_cases (n : Int) (d : Nat) :
    (rne n d = n / (d : Int) ∧ 2 * (n % (d : Int)) ≤ d) ∨
    (rne n d = n / (d : Int) + 1 ∧ (d : Int) ≤ 2 * (n % (d : Int))) := by
  unfold rne
  simp only
  split_ifs <;> omega

/-- Rounding to the nearest integer does not pass an integer above. -/
theorem rne_le (n k : Int) (d : Nat) (hd : 0 < d) (h : n ≤ k * d) : rne n d ≤ k := by
  have hd' : (0 : Int) < d := by exact_mod_cast hd
  have hq := Int.ediv_add_emod n d
  have hr0 := Int.emod_nonneg n (ne_of_gt hd')
  rcases rne_cases n d with ⟨e, _⟩ | ⟨e, h2⟩
  · rw [e]
    by_contra hc
    push_neg at hc
    have : (d : Int) * (k + 1) ≤ d * (n / d) :=
      mul_le_mul_of_nonneg_left (by omega) (le_of_lt hd')
    nlinarith
  · rw [e]
    by_contra hc
    push_neg at hc
    have : (d : Int) * k ≤ d * (n / d) := mul_le_mul_of_nonneg_left (by omega) (le_of_lt hd')
    nlinarith

/-- Rounding to the nearest integer does not pass an integer below. -/
theorem le_rne (n k : Int) (d : Nat) (hd : 0 < d) (h : k * d ≤ n) : k ≤ rne n d := by
  have hd' : (0 : Int) < d := by exact_mod_cast hd
  have hq := Int.ediv_add_emod n d
  have hr1 := Int.emod_lt_of_pos n hd'
  have hk : k ≤ n / d := by
    by_contra hc
    push_neg at hc
    have : (d : Int) * (n / d + 1) ≤ d * k := mul_le_mul_of_nonneg_left (by omega) (le_of_lt hd')
    nlinarith
  rcases rne_cases n d with ⟨e, _⟩ | ⟨e, _⟩ <;> rw [e] <;> omega

/-- A number below the midpoint of `k` and `k + 1` is rounded to at most `k`. -/
theorem rne_le_of_lt_mid (n k : Int) (d : Nat) (hd : 0 < d) (h : 2 * n < (2 * k + 1) * d) :
    rne n d ≤ k := by
  have hd' : (0 : Int) < d := by exact_mod_cast hd
  have hq := Int.ediv_add_emod n d
  have hr0 := Int.emod_nonneg n (ne_of_gt hd')
  rcases rne_cases n d with ⟨e, _⟩ | ⟨e, h2⟩
  · rw [e]
    by_contra hc
    push_neg at hc
    have : (d : Int) * (k + 1) ≤ d * (n / d) :=
      mul_le_mul_of_nonneg_left (by omega) (le_of_lt hd')
    nlinarith
  · rw [e]
    by_contra hc
    push_neg at hc
    have : (d : Int) * k ≤ d * (n / d) := mul_le_mul_of_nonneg_left (by omega) (le_of_lt hd')
    nlinarith

/-- A sufficient test for being a binary32 number: a 24 bit integer times a
power of two. -/
theorem representable_of_mantissa (m e : Nat) (hm : m ≤ 2 ^ 24) :
    2 ^ (ilog2 (m * 2 ^ e) - 23) ∣ m * 2 ^ e := by
  by_cases h0 : m = 0
  · subst h0
    simp
  by_cases hlt : m < 2 ^ 24
  · have hy : m * 2 ^ e < 2 ^ (24 + e) := by
      rw [pow_add]
      exact Nat.mul_lt_mul_of_pos_right hlt (by positivity)
    have hne : m * 2 ^ e ≠ 0 := by positivity
    have := ilog2_lt_of_lt_pow hy hne
    exact (pow_dvd_pow 2 (by omega)).trans (dvd_mul_left _ _)
  · have hm' : m = 2 ^ 24 := by omega
    subst hm'
    rw [← pow_add]
    have : ilog2 (2 ^ (24 + e)) = 24 + e := by
      rw [ilog2_eq_log, Nat.log_pow (by decide)]
    exact pow_dvd_pow 2 (by omega)

/-- Rounding to binary32 does not pass a binary32 number above. -/
theorem f32round_le (m d y : Nat) (hd : 0 < d) (hle : m ≤ y * d)
    (hy : 2 ^ (ilog2 y - 23) ∣ y) : f32round (m : Int) d ≤ (y : Int) := by
  unfold f32round
  simp only [Int.natAbs_ofNat]
  have hdiv : m / d ≤ y := by
    apply Nat.div_le_of_le_mul
    rw [Nat.mul_comm]
    exact hle
  have hg : ilog2 (m / d) - 23 ≤ ilog2 y - 23 := Nat.sub_le_sub_right (ilog2_mono hdiv) 23
  obtain ⟨k, hk⟩ := (pow_dvd_pow 2 hg).trans hy
  generalize ilog2 (m / d) - 23 = g at hk ⊢
  have hpos : 0 < d * 2 ^ g := by positivity
  have h1 : rne (m : Int) (d * 2 ^ g) ≤ (k : Int) := by
    apply rne_le _ _ _ hpos
    have : m ≤ k * (d * 2 ^ g) := by
      calc m ≤ y * d := hle
        _ = k * (d * 2 ^ g) := by rw [hk]; ring
    exact_mod_cast this
  calc rne (m : Int) (d * 2 ^ g) * ((2 ^ g : Nat) : Int)
      ≤ (k : Int) * ((2 ^ g : Nat) : Int) := mul_le_mul_of_nonneg_right h1 (by positivity)
    _ = (y : Int) := by rw [hk]; push_cast; ring

/-- Rounding to binary32 does not pass a binary32 number below. -/
theorem le_f32round (m d y : Nat) (hd : 0 < d) (hle : y * d ≤ m)
    (hy : 2 ^ (ilog2 y - 23) ∣ y) : (y : Int) ≤ f32round (m : Int) d := by
  unfold f32round
  simp only [Int.natAbs_ofNat]
  have hdiv : y ≤ m / d := (Nat.le_div_iff_mul_le hd).2 hle
  have hmono := ilog2_mono hdiv
  rcases Nat.eq_or_lt_of_le hmono with heq | hlt
  · rw [heq] at hy
    obtain ⟨k, hk⟩ := hy
    generalize ilog2 (m / d) - 23 = g at hk ⊢
    have hpos : 0 < d * 2 ^ g := by positivity
    have h1 : (k : Int) ≤ rne (m : Int) (d * 2 ^ g) := by
      apply le_rne _ _ _ hpos
      have : k * (d * 2 ^ g) ≤ m := by
        calc k * (d * 2 ^ g) = y * d := by rw [hk]; ring
          _ ≤ m := hle
      exact_mod_cast this
    calc (y : Int) = (k : Int) * ((2 ^ g : Nat) : Int) := by rw [hk]; push_cast; ring
      _ ≤ rne (m : Int) (d * 2 ^ g) * ((2 ^ g : Nat) : Int) :=
        mul_le_mul_of_nonneg_right h1 (by positivity)
  · have hne : m / d ≠ 0 := by
      intro h0
      rw [h0] at hlt
      have : ilog2 0 = 0 := rfl
      omega
    have hpow := pow_ilog2_le hne
    have hylt : y < 2 ^ ilog2 (m / d) :=
      lt_of_lt_of_le (lt_pow_ilog2 y) (Nat.pow_le_pow_right (by decide) hlt)
    have hgj : ilog2 (m / d) - 23 ≤ ilog2 (m / d) := Nat.sub_le _ _
    generalize ilog2 (m / d) = j at *
    generalize j - 23 = g at *
    have hpos : 0 < d * 2 ^ g := by positivity
    have hsplit : 2 ^ j = 2 ^ (j - g) * 2 ^ g := by
      rw [← pow_add]
      congr 1
      omega
    have h1 : ((2 ^ (j - g) : Nat) : Int) ≤ rne (m : Int) (d * 2 ^ g) := by
      apply le_rne _ _ _ hpos
      have : 2 ^ (j - g) * (d * 2 ^ g) ≤ m := by
        calc 2 ^ (j - g) * (d * 2 ^ g) = 2 ^ j * d := by rw [hsplit]; ring
          _ ≤ m / d * d := Nat.mul_le_mul_right d hpow
          _ ≤ m := Nat.div_mul_le_self m d
      exact_mod_cast this
    calc (y : Int) ≤ ((2 ^ j : Nat) : Int) := by exact_mod_cast le_of_lt hylt
      _ = ((2 ^ (j - g) : Nat) : Int) * ((2 ^ g : Nat) : Int) := by rw [hsplit]; push_cast; ring
      _ ≤ rne (m : Int) (d * 2 ^ g) * ((2 ^ g : Nat) : Int) :=
        mul_le_mul_of_nonneg_right h1 (by positivity)

/-- A number below the midpoint of two neighbours of its binade is rounded
to the lower one or less. -/
theorem f32round_le_of_lt_mid (m d g k : Nat) (hd : 0 < d) (hg : ilog2 (m / d) - 23 = g)
    (h : 2 * m < (2 * k + 1) * (d * 2 ^ g)) :
    f32round (m : Int) d ≤ ((k * 2 ^ g : Nat) : Int) := by
  unfold f32round
  simp only [Int.natAbs_ofNat]
  rw [hg]
  have hpos : 0 < d * 2 ^ g := by positivity
  have h1 : rne (m : Int) (d * 2 ^ g) ≤ (k : Int) := by
    apply rne_le_of_lt_mid _ _ _ hpos
    exact_mod_cast h
  calc rne (m : Int) (d * 2 ^ g) * ((2 ^ g : Nat) : Int)
      ≤ (k : Int) * ((2 ^ g : Nat) : Int) := mul_le_mul_of_nonneg_right h1 (by positivity)
    _ = ((k * 2 ^ g : Nat) : Int) := by push_cast; ring

theorem f32thousand_sign : f32thousand.sign = 1 := by decide

theorem f32thousand_natAbs : f32thousand.natAbs = 1000 * 2 ^ 149 := by decide

theorem f32ofInt_exact (x : Nat) (h : x ≤ 2 ^ 24) :
    f32ofInt (x : Int) = ((x * 2 ^ 149 : Nat) : Int) := by
  have e : (x : Int) * (f32one : Int) = ((x * 2 ^ 149 : Nat) : Int) := by
    unfold f32one
    push_cast
    ring
  unfold f32ofInt
  rw [e]
  apply le_antisymm
  · exact f32round_le _ 1 _ (by decide) (by omega) (representable_of_mantissa x 149 h)
  · exact le_f32round _ 1 _ (by decide) (by omega) (representable_of_mantissa x 149 h)

theorem f32div_thousand (x : Nat) :
    f32div ((x * 2 ^ 149 : Nat) : Int) f32thousand
      = f32round ((x * 2 ^ 149 * 2 ^ 149 : Nat) : Int) (1000 * 2 ^ 149) := by
  have e : ((x * 2 ^ 149 : Nat) : Int) * 1 * (f32one : Int)
      = ((x * 2 ^ 149 * 2 ^ 149 : Nat) : Int) := by
    unfold f32one
    push_cast
    ring
  unfold f32div
  rw [f32thousand_sign, f32thousand_natAbs, e]

theorem f32add_half (b : Nat) :
    f32add (b : Int) f32half = f32round ((b + 2 ^ 148 : Nat) : Int) 1 := by
  unfold f32add f32half
  rw [Nat.cast_add]

theorem f32toInt_floorf (c : Int) (n : Nat) (hlo : ((n * 2 ^ 149 : Nat) : Int) ≤ c)
    (hhi : c < (((n + 1) * 2 ^ 149 : Nat) : Int)) : f32toInt (floorf c) = (n : Int) := by
  have hq : c / (f32one : Int) = (n : Int) := by
    unfold f32one
    push_cast at hlo hhi ⊢
    omega
  unfold f32toInt floorf
  rw [hq]
  have hone : 0 < f32one := by
    unfold f32one
    positivity
  have hpos : ((f32one : Nat) : Int) ≠ 0 := Int.natCast_ne_zero.2 (ne_of_gt hone)
  rw [Int.tdiv_eq_ediv (Int.mul_nonneg (Int.ofNat_nonneg _) (Int.ofNat_nonneg _))
    (Int.ofNat_nonneg _), Int.mul_ediv_cancel _ hpos]

/-- The millisecond conversion of `toDuration` is exact half-up rounding as
long as the product `x` of value and rate is at most `2^24`. -/
theorem ms_frames (x : Nat) (h1 : 1 ≤ x) (h2 : x ≤ 2 ^ 24) :
    f32toInt (floorf (f32add (f32div (f32ofInt (x : Int)) f32thousand) f32half))
      = (((2 * x + 1000) / 2000 : Nat) : Int) := by
  have hd : 0 < 1000 * 2 ^ 149 := by positivity
  rw [f32ofInt_exact x h2, f32div_thousand]
  have hb0 : (0 : Int) ≤ f32round ((x * 2 ^ 149 * 2 ^ 149 : Nat) : Int) (1000 * 2 ^ 149) := by
    have := le_f32round (x * 2 ^ 149 * 2 ^ 149) (1000 * 2 ^ 149) 0 hd (by omega) (by simp)
    exact_mod_cast this
  obtain ⟨b, hb⟩ := Int.eq_ofNat_of_zero_le hb0
  rw [hb, f32add_half]
  obtain ⟨n, hn⟩ : ∃ n, n = (2 * x + 1000) / 2000 := ⟨_, rfl⟩
  rw [← hn]
  have hn16 : n ≤ 16777 := by omega
  -- the quotient is at least `n - 1/2`
  obtain ⟨t, ht⟩ : ∃ t, t = 2 * n - 1 := ⟨_, rfl⟩
  have hblo : t * 2 ^ 148 ≤ b := by
    have := le_f32round (x * 2 ^ 149 * 2 ^ 149) (1000 * 2 ^ 149) (t * 2 ^ 148) hd (by omega)
      (representable_of_mantissa t 148 (by omega))
    rw [hb] at this
    exact_mod_cast this
  -- the sum is at least `n`
  have hclo : ((n * 2 ^ 149 : Nat) : Int) ≤ f32round ((b + 2 ^ 148 : Nat) : Int) 1 :=
    le_f32round (b + 2 ^ 148) 1 (n * 2 ^ 149) (by decide) (by omega)
      (representable_of_mantissa n 149 (by omega))
  -- the sum is below `n + 1`
  have hchi : f32round ((b + 2 ^ 148 : Nat) : Int) 1 < (((n + 1) * 2 ^ 149 : Nat) : Int) := by
    by_cases hc1 : n ≤ 16383
    · have hbhi : b ≤ (1024 * n + 511) * 2 ^ 139 := by
        have := f32round_le (x * 2 ^ 149 * 2 ^ 149) (1000 * 2 ^ 149) ((1024 * n + 511) * 2 ^ 139)
          hd (by omega) (representable_of_mantissa _ 139 (by omega))
        rw [hb] at this
        exact_mod_cast this
      have := f32round_le (b + 2 ^ 148) 1 ((1024 * n + 1023) * 2 ^ 139) (by decide) (by omega)
        (representable_of_mantissa _ 139 (by omega))
      have hlt : (1024 * n + 1023) * 2 ^ 139 < (n + 1) * 2 ^ 149 := by omega
      exact lt_of_le_of_lt this (by exact_mod_cast hlt)
    · by_cases hc2 : x < 16384000
      · have hbhi : b ≤ 16384 * 2 ^ 149 := by
          have := f32round_le (x * 2 ^ 149 * 2 ^ 149) (1000 * 2 ^ 149) (16384 * 2 ^ 149)
            hd (by omega) (representable_of_mantissa _ 149 (by omega))
          rw [hb] at this
          exact_mod_cast this
        have := f32round_le (b + 2 ^ 148) 1 (32769 * 2 ^ 148) (by decide) (by omega)
          (representable_of_mantissa _ 148 (by omega))
        have hlt : 32769 * 2 ^ 148 < (n + 1) * 2 ^ 149 := by omega
        exact lt_of_le_of_lt this (by exact_mod_cast hlt)
      · have hlog : ilog2 (x * 2 ^ 149 * 2 ^ 149 / (1000 * 2 ^ 149)) = 163 := by
          rw [ilog2_eq_log, Nat.log_eq_iff (Or.inl (by decide))]
          constructor
          · rw [Nat.le_div_iff_mul_le hd]
            omega
          · rw [Nat.div_lt_iff_lt_mul hd]
            omega
        have hbhi : b ≤ (512 * n + 255) * 2 ^ 140 := by
          have := f32round_le_of_lt_mid (x * 2 ^ 149 * 2 ^ 149) (1000 * 2 ^ 149) 140
            (512 * n + 255) hd (by rw [hlog]) (by omega)
          rw [hb] at this
          exact_mod_cast this
        have := f32round_le (b + 2 ^ 148) 1 ((512 * n + 511) * 2 ^ 140) (by decide) (by omega)
          (representable_of_mantissa _ 140 (by omega))
        have hlt : (512 * n + 511) * 2 ^ 140 < (n + 1) * 2 ^ 149 := by omega
        exact lt_of_le_of_lt this (by exact_mod_cast hlt)
  exact f32toInt_floorf _ n hclo hchi

theorem toDuration_ms_core (v fps : Int) (rest : Str) (hv : 0 < v) (hfps : 0 < fps)
    (hx : v * fps ≤ 16777216)
    (hr : ∀ c, rest.head? = some c → isdigit c = false)
    (hw : (extractWord ⟨rest, false⟩ []).1 ≠ "s".toList) :
    toDuration fps (intText v ++ rest) = max 1 ((2 * (v * fps) + 1000) / 2000) := by
  have hvx : v ≤ v * fps := le_mul_of_one_le_right (le_of_lt hv) (by omega)
  have hpos : 0 < v * fps := mul_pos hv hfps
  have h1 := extractInt_intText v 0 rest (by unfold INT_MIN; omega) (by unfold INT_MAX; omega) hr
  have hwrap : wrapInt (v * fps) = v * fps :=
    wrapInt_of_range _ (by unfold INT_MIN; omega) (by unfold INT_MAX; omega)
  obtain ⟨x, hxe⟩ := Int.eq_ofNat_of_zero_le (le_of_lt hpos)
  have hconv := ms_frames x (by omega) (by omega)
  unfold toDuration
  simp only [h1]
  rw [if_neg (by omega), if_neg hw, hwrap, hxe, hconv]
  split <;> omega

/-! ## Claim about the millisecond conversion -/

/-- C2 (as stated, refuted): at 60 frames per second the text `1118575ms`
gives 67114 frames, while `1118575 * 60 / 1000` rounded half-up is 67115:
the product `67114500` is not a single precision number. -/
theorem toDuration_ms_inexact :
    (0 : Int) < 1118575 ∧ (0 : Int) < 60 ∧ (1118575 : Int) * 60 ≤ INT_MAX ∧
      intText 1118575 ++ "ms".toList = "1118575ms".toList ∧
      toDuration 60 (intText 1118575 ++ "ms".toList) = 67114 ∧
      max 1 ((2 * ((1118575 : Int) * 60) + 1000) / 2000) = 67115 ∧
      toDuration 60 (intText 1118575 ++ "ms".toList)
        ≠ max 1 ((2 * ((1118575 : Int) * 60) + 1000) / 2000) := by
  set_option maxRecDepth 100000 in decide

/-- C2 (amended): for a positive `v` and a positive rate `fps` with
`v * fps ≤ 2^24`, `toDuration` of the decimal text of `v`, with the suffix
`ms` or with no suffix, is `v * fps / 1000` rounded half-up, with a minimum
of `1`; at 60 frames per second `500ms` gives 30 and `1ms` gives 1. -/
theorem toDuration_milliseconds (v fps : Int) (hv : 0 < v) (hfps : 0 < fps)
    (hx : v * fps ≤ 16777216) :
    toDuration fps (intText v ++ "ms".toList) = max 1 ((2 * (v * fps) + 1000) / 2000) ∧
      toDuration fps (intText v) = max 1 ((2 * (v * fps) + 1000) / 2000) ∧
      toDuration 60 "500ms".toList = 30 ∧ toDuration 60 "1ms".toList = 1 := by
  refine ⟨toDuration_ms_core v fps _ hv hfps hx (by decide) (by decide), ?_, ?_, ?_⟩
  · have := toDuration_ms_core v fps [] hv hfps hx (by decide) (by decide)
    rwa [List.append_nil] at this
  · have := toDuration_ms_core 500 60 "ms".toList (by decide) (by decide) (by decide)
      (by decide) (by decide)
    exact this
  · have := toDuration_ms_core 1 60 "ms".toList (by decide) (by decide) (by decide)
      (by decide) (by decide)
    exact this

theorem toDuration_milliseconds_witness :
    (0 : Int) < 250 ∧ (0 : Int) < 60 ∧ (250 : Int) * 60 ≤ 16777216 ∧
      toDuration 60 (intText 250 ++ "ms".toList) = max 1 ((2 * (250 * 60) + 1000) / 2000) ∧
      toDuration 60 (intText 250) = max 1 ((2 * (250 * 60) + 1000) / 2000) ∧
      toDuration 60 "500ms".toList = 30 ∧ toDuration 60 "1ms".toList = 1 :=
  ⟨by decide, by decide, by decide,
    toDuration_milliseconds 250 60 (by decide) (by decide) (by decide)⟩

/-! ## Facts about `getSectionTitle` and the absence of range errors -/

theorem find_first_of_cases (s : Str) (c : Char) :
    find_first_of s c = npos ∨ find_first_of s c < s.length := by
  unfold find_first_of
  simp only
  split
  · right
    assumption
  · left
    rfl

theorem substr_total (s : Str) (pos n : Nat) (h : pos ≤ s.length) :
    ∃ r, substr s pos n = some r := by
  unfold substr
  rw [if_neg (by omega)]
  exact ⟨_, rfl⟩

theorem split_total (s : Str) (seppos : Nat) (h : seppos = npos ∨ seppos < s.length) :
    ∃ r, (if seppos = npos then some (s, [])
      else do
        let outs ← substr s 0 seppos
        let rest ← substr s (sizeAdd seppos 1) s.length
        pure (outs, rest)) = some r := by
  by_cases hn : seppos = npos
  · rw [if_pos hn]
    exact ⟨_, rfl⟩
  · rw [if_neg hn]
    have hlt : seppos < s.length := by
      rcases h with h | h
      · exact absurd h hn
      · exact h
    obtain ⟨a, ha⟩ := substr_total s 0 seppos (by omega)
    obtain ⟨b, hb⟩ := substr_total s (sizeAdd seppos 1) s.length
      (le_trans (sizeAdd_one_le _) (by omega))
    rw [ha, hb]
    exact ⟨_, rfl⟩

theorem getSectionTitle_total (s : Str) : ∃ r, getSectionTitle s = some r := by
  unfold getSectionTitle
  simp only
  rcases find_first_of_cases s ']' with h | h
  · rw [if_pos h]
    exact ⟨_, rfl⟩
  · split
    · exact ⟨_, rfl⟩
    · exact substr_total s 1 _ (by omega)

theorem getKeyPair_total (ws s : Str) : ∃ r, getKeyPair ws s = some r := by
  unfold getKeyPair
  simp only
  by_cases hn : find_first_of s '=' = npos
  · rw [if_pos hn]
    exact ⟨_, rfl⟩
  · rw [if_neg hn]
    have hlt : find_first_of s '=' < s.length := by
      rcases find_first_of_cases s '=' with h | h
      · exact absurd h hn
      · exact h
    obtain ⟨a, ha⟩ := substr_total s 0 (find_first_of s '=') (by omega)
    obtain ⟨b, hb⟩ := substr_total s (sizeAdd (find_first_of s '=') 1) s.length
      (le_trans (sizeAdd_one_le _) (by omega))
    obtain ⟨k, hk⟩ := trim_total a ws
    obtain ⟨v, hv⟩ := trim_total b ws
    rw [ha, hb]
    simp only [Option.bind_eq_bind, Option.some_bind]
    rw [hk, hv]
    exact ⟨_, rfl⟩

theorem popFirstString_total (s : Str) (sep : Char) : ∃ r, popFirstString s sep = some r := by
  unfold popFirstString
  simp only
  apply split_total
  split
  · split
    · exact find_first_of_cases s ';'
    · exact find_first_of_cases s ','
  · exact find_first_of_cases s sep

theorem stripCarriageReturn_total (line : Str) : ∃ r, stripCarriageReturn line = some r := by
  unfold stripCarriageReturn
  split
  · rename_i hpos
    have hget : charAt line (line.length - 1)
        = some (line.get ⟨line.length - 1, by omega⟩) := by
      unfold charAt
      exact List.get?_eq_get _
    rw [hget]
    simp only [Option.bind_eq_bind, Option.some_bind]
    split
    · exact substr_total line 0 _ (by omega)
    · exact ⟨_, rfl⟩
  · exact ⟨_, rfl⟩

/-- The title of a line whose first `]` is not its first character: the
characters between index 1 and that `]`. -/
theorem getSectionTitle_of_bracket (a : Char) (pre post : Str) (h : ']' ∉ a :: pre)
    (hlen : (a :: pre ++ ']' :: post).length < npos) :
    getSectionTitle (a :: pre ++ ']' :: post) = some pre := by
  have hf := find_first_of_split (a :: pre) post ']' h
  rw [npos_eq] at hlen
  simp only [List.length_append, List.length_cons] at hlen hf
  unfold getSectionTitle
  simp only
  rw [hf, if_neg (by rw [npos_eq]; omega)]
  have hs : sizeSub (pre.length + 1) 1 = pre.length := by
    unfold sizeSub
    omega
  rw [hs]
  unfold substr
  rw [if_neg (by simp)]
  simp

theorem getKeyPair_eq (ws pre post : Str) (hpre : '=' ∉ pre)
    (h : (pre ++ '=' :: post).length < npos) :
    getKeyPair ws (pre ++ '=' :: post) = some (trimmed pre ws, trimmed post ws) := by
  have hlen := h
  rw [npos_eq] at hlen
  simp only [List.length_append, List.length_cons] at hlen
  have hpreLen : pre.length < npos := by rw [npos_eq]; omega
  have hpostLen : post.length < npos := by rw [npos_eq]; omega
  unfold getKeyPair
  simp only
  rw [find_first_of_split pre post '=' hpre, if_neg (by rw [npos_eq]; omega),
    substr_front pre ('=' :: post), substr_back pre post '=' h]
  simp only [Option.bind_eq_bind, Option.some_bind]
  rw [trim_eq pre ws hpreLen, trim_eq post ws hpostLen]
  rfl

/-! ## Claims about `getSectionTitle` and range errors -/

/-- C11 (evaluation of the code): on a line whose first `]` is its first
character the length `bracket - 1` wraps around to `npos`, and
`getSectionTitle` returns everything after that `]`: `"]abc"` gives `"abc"`
and `"]]"` gives `"]"`, not the empty string.  A line without `]` gives the
empty string, and so does `"a]"`. -/
theorem getSectionTitle_leading_bracket :
    getSectionTitle "]abc".toList = some "abc".toList ∧
      getSectionTitle "]]".toList = some "]".toList ∧
      find_first_of "]abc".toList ']' = 0 ∧ sizeSub 0 1 = npos ∧
      getSectionTitle "abc".toList = some [] ∧ getSectionTitle "a]".toList = some [] := by
  decide

/-- C19: `getSectionTitle`, `getKeyPair`, `popFirstString` and
`stripCarriageReturn` return a value on every string: no call of `substr` or
`at` is out of range.  The strings `""`, `"]"`, `"="`, `"\r"`, `","` and
`"a,"` are instances. -/
theorem no_out_of_range (ws s : Str) (sep : Char) :
    (∃ r, getSectionTitle s = some r) ∧ (∃ r, getKeyPair ws s = some r) ∧
      (∃ r, popFirstString s sep = some r) ∧ (∃ r, stripCarriageReturn s = some r) ∧
      getSectionTitle "]".toList = some [] ∧ getSectionTitle [] = some [] ∧
      getKeyPair ws "=".toList = some ([], []) ∧ getKeyPair ws [] = some ([], []) ∧
      popFirstString ",".toList (Char.ofNat 0) = some ([], []) ∧
      popFirstString "a,".toList (Char.ofNat 0) = some ("a".toList, []) ∧
      popFirstString [] sep = some ([], []) ∧
      stripCarriageReturn "\r".toList = some [] ∧ stripCarriageReturn [] = some [] := by
  refine ⟨getSectionTitle_total s, getKeyPair_total ws s, popFirstString_total s sep,
    stripCarriageReturn_total s, by decide, by decide, ?_, ?_, by decide, by decide, ?_,
    by decide, by decide⟩
  · exact getKeyPair_eq ws [] [] (by simp) (by decide)
  · unfold getKeyPair
    simp only
    have hf : find_first_of [] '=' = npos := by decide
    rw [hf, if_pos rfl]
  · have := pop_nosep [] sep (by decide) (by simp)
    exact this

/-! ## Facts about `toInt` -/

theorem toInt_intText (n d : Int) (g : Str) (hlo : INT_MIN ≤ n) (hhi : n ≤ INT_MAX)
    (hg : ∀ c, g.head? = some c → isdigit c = false) : toInt (intText n ++ g) d = n := by
  unfold toInt
  simp only [extractInt_intText n 0 g hlo hhi hg]
  rfl

theorem toInt_lacksNumber (s : Str) (d : Int) (h : lacksNumber s = true) : toInt s d = d := by
  unfold lacksNumber at h
  unfold toInt extractInt
  simp only [Bool.false_eq_true, if_false]
  cases hdrop : s.dropWhile isspace with
  | nil => rfl
  | cons c cs =>
    rw [hdrop] at h
    simp only at h ⊢
    generalize (if c = '-' ∨ c = '+' then cs else c :: cs) = body at h ⊢
    cases body with
    | nil => rfl
    | cons b bs =>
      have hb : isdigit b = false := by simpa using h
      have : (b :: bs).takeWhile isdigit = [] := by
        simp [List.takeWhile_cons, hb]
      rw [this]
      rfl

/-! ## Claims about `toDirection` and `toInt` -/

/-- C12: `toDirection` maps `N, NE, E, SE, S, SW, W, NW` to
`3, 4, 5, 6, 7, 0, 1, 2`; the eight names are distinct, their values are
distinct, and the values are exactly the integers `0..7`. -/
theorem toDirection_compass (dflt : Int) :
    compassNames.map (toDirection dflt) = [3, 4, 5, 6, 7, 0, 1, 2] ∧
      compassNames.Nodup ∧ (compassNames.map (toDirection dflt)).Nodup ∧
      ∀ n : Int, n ∈ compassNames.map (toDirection dflt) ↔ 0 ≤ n ∧ n ≤ 7 := by
  have h : compassNames.map (toDirection dflt) = [3, 4, 5, 6, 7, 0, 1, 2] := rfl
  refine ⟨h, by decide, ?_, ?_⟩
  · rw [h]
    decide
  · intro n
    rw [h]
    simp only [List.mem_cons, List.mem_singleton, List.not_mem_nil, or_false]
    omega

/-- C13: `toDirection` always returns an integer in `[0, 7]`; a text that is
not a compass name gives `toInt` of the text when that is in `[0, 7]` and `0`
otherwise; `"9"` and `"-1"` give `0`. -/
theorem toDirection_range (dflt : Int) (s : Str) :
    0 ≤ toDirection dflt s ∧ toDirection dflt s ≤ 7 ∧
      (s ∈ compassNames ∨
        toDirection dflt s
          = if 0 ≤ toInt s dflt ∧ toInt s dflt ≤ 7 then toInt s dflt else 0) ∧
      toDirection dflt "9".toList = 0 ∧ toDirection dflt "-1".toList = 0 := by
  have hex1 : toDirection dflt "9".toList = 0 := by
    have : toInt "9".toList dflt = 9 := by
      have := toInt_intText 9 dflt [] (by decide) (by decide) (by simp)
      exact this
    unfold toDirection
    simp only [this]
    decide
  have hex2 : toDirection dflt "-1".toList = 0 := by
    have : toInt "-1".toList dflt = -1 := by
      have := toInt_intText (-1) dflt [] (by decide) (by decide) (by simp)
      exact this
    unfold toDirection
    simp only [this]
    decide
  by_cases hmem : s ∈ compassNames
  · have hv : toDirection dflt s ∈ compassNames.map (toDirection dflt) :=
      List.mem_map_of_mem _ hmem
    have hl : compassNames.map (toDirection dflt) = [3, 4, 5, 6, 7, 0, 1, 2] := rfl
    rw [hl] at hv
    simp only [List.mem_cons, List.mem_singleton, List.not_mem_nil, or_false] at hv
    exact ⟨by omega, by omega, Or.inl hmem, hex1, hex2⟩
  · have hmem2 := hmem
    simp only [compassNames, List.mem_cons, List.mem_singleton, List.not_mem_nil,
      or_false, not_or] at hmem2
    obtain ⟨h1, h2, h3, h4, h5, h6, h7, h8⟩ := hmem2
    have hv : toDirection dflt s
        = if toInt s dflt < 0 ∨ toInt s dflt > 7 then 0 else toInt s dflt := by
      unfold toDirection
      rw [if_neg h1, if_neg h2, if_neg h3, if_neg h4, if_neg h5, if_neg h6, if_neg h7,
        if_neg h8]
    rw [hv]
    refine ⟨?_, ?_, Or.inr ?_, hex1, hex2⟩
    · split_ifs <;> omega
    · split_ifs <;> omega
    · split_ifs <;> omega

/-- C15: `toInt(s, d)` returns `d` when no number can be extracted from `s`,
and returns `n` on the decimal text of an `int` `n` followed by any text that
does not begin with a digit. -/
theorem toInt_default_or_value (s g : Str) (d n : Int) (hlo : INT_MIN ≤ n)
    (hhi : n ≤ INT_MAX) (hg : ∀ c, g.head? = some c → isdigit c = false) :
    (lacksNumber s = true → toInt s d = d) ∧ toInt [] d = d ∧
      toInt (intText n ++ g) d = n :=
  ⟨toInt_lacksNumber s d, rfl, toInt_intText n d g hlo hhi hg⟩

theorem toInt_default_or_value_witness :
    INT_MIN ≤ -42 ∧ (-42 : Int) ≤ INT_MAX ∧
      (∀ c, "px".toList.head? = some c → isdigit c = false) ∧
      (lacksNumber " +x1".toList = true → toInt " +x1".toList 7 = 7) ∧ toInt [] 7 = 7 ∧
      toInt (intText (-42) ++ "px".toList) 7 = -42 :=
  ⟨by decide, by decide, by decide,
    toInt_default_or_value " +x1".toList "px".toList 7 (-42) (by decide) (by decide)
      (by decide)⟩

/-! ## Facts about `popFirstInt` -/

theorem length_natDigits_le (f n : Nat) (acc : Str) :
    (natDigits f n acc).length ≤ f + acc.length := by
  induction f generalizing n acc with
  | zero => simp [natDigits]
  | succ f ih =>
    rw [natDigits]
    split
    · simp only [List.length_cons]
      omega
    · have := ih (n / 10) (digitChar (n % 10) :: acc)
      simp only [List.length_cons] at this
      omega

theorem length_intText_le (v : Int) : (intText v).length ≤ v.natAbs + 2 := by
  have h := length_natDigits_le (v.natAbs + 1) v.natAbs []
  simp only [List.length_nil] at h
  unfold intText
  split
  · simp only [List.length_cons]
    unfold natText
    omega
  · unfold natText
    omega

theorem isdigit_not_separator (c : Char) (h : isdigit c = true) :
    isSeparator (Char.ofNat 0) c = false := by
  unfold isSeparator
  rw [if_pos rfl]
  have h1 : c ≠ ',' := by
    rintro rfl
    revert h
    decide
  have h2 : c ≠ ';' := by
    rintro rfl
    revert h
    decide
  simp [h1, h2]

theorem intText_not_separator (v : Int) :
    ∀ c ∈ intText v, isSeparator (Char.ofNat 0) c = false := by
  intro c hc
  unfold intText at hc
  split at hc
  · rcases List.mem_cons.1 hc with rfl | hc
    · decide
    · exact isdigit_not_separator c (natText_isdigit _ c hc)
  · exact isdigit_not_separator c (natText_isdigit _ c hc)

theorem toInt_intText_end (n d : Int) (hlo : INT_MIN ≤ n) (hhi : n ≤ INT_MAX) :
    toInt (intText n) d = n := by
  have := toInt_intText n d [] hlo hhi (by simp)
  rwa [List.append_nil] at this

/-- `popFirstInt` reads the decimal text of an `int` in front of a separator. -/
theorem popFirstInt_head (dflt v : Int) (c : Char) (rest : Str) (hlo : INT_MIN ≤ v)
    (hhi : v ≤ INT_MAX) (hc : isSeparator (Char.ofNat 0) c = true)
    (hlen : (intText v ++ c :: rest).length < npos) :
    popFirstInt dflt (intText v ++ c :: rest) (Char.ofNat 0) = some (v, rest) := by
  unfold popFirstInt
  rw [pop_split (intText v) rest c _ hlen (intText_not_separator v) hc]
  simp only [Option.bind_eq_bind, Option.some_bind, toInt_intText_end v dflt hlo hhi]
  rfl

/-- `popFirstInt` reads the decimal text of an `int` that ends the string. -/
theorem popFirstInt_last (dflt v : Int) (hlo : INT_MIN ≤ v) (hhi : v ≤ INT_MAX)
    (hlen : (intText v).length < npos) :
    popFirstInt dflt (intText v) (Char.ofNat 0) = some (v, []) := by
  unfold popFirstInt
  rw [pop_nosep (intText v) _ hlen (intText_not_separator v)]
  simp only [Option.bind_eq_bind, Option.some_bind, toInt_intText_end v dflt hlo hhi]
  rfl

theorem comma_or_semicolon (c : Char) (h : c = ',' ∨ c = ';') :
    isSeparator (Char.ofNat 0) c = true := by
  rcases h with rfl | rfl <;> decide

/-! ## Claim about `toRGBA` -/

/-- C14: on the decimal texts of four `int`s `r, g, b, a` joined by
separators that are each `,` or `;`, `toRGBA` returns the channels
`r mod 256, g mod 256, b mod 256, a mod 256`, each in `0..255`;
`"255,0,128,64"` gives `(255, 0, 128, 64)` and `"300,0,0,0"` gives red 44. -/
theorem toRGBA_wraps (dflt r g b a : Int) (c1 c2 c3 : Char)
    (hr : INT_MIN ≤ r ∧ r ≤ INT_MAX) (hg : INT_MIN ≤ g ∧ g ≤ INT_MAX)
    (hb : INT_MIN ≤ b ∧ b ≤ INT_MAX) (ha : INT_MIN ≤ a ∧ a ≤ INT_MAX)
    (h1 : c1 = ',' ∨ c1 = ';') (h2 : c2 = ',' ∨ c2 = ';') (h3 : c3 = ',' ∨ c3 = ';') :
    toRGBA dflt (intText r ++ c1 :: (intText g ++ c2 :: (intText b ++ c3 :: intText a)))
        = some ⟨(r % 256).toNat, (g % 256).toNat, (b % 256).toNat, (a % 256).toNat⟩ ∧
      (r % 256).toNat < 256 ∧ (g % 256).toNat < 256 ∧ (b % 256).toNat < 256 ∧
      (a % 256).toNat < 256 ∧
      toRGBA dflt "255,0,128,64".toList = some ⟨255, 0, 128, 64⟩ ∧
      (toRGBA dflt "300,0,0,0".toList).map Color.r = some 44 := by
  have key : ∀ r g b a : Int, ∀ c1 c2 c3 : Char,
      (INT_MIN ≤ r ∧ r ≤ INT_MAX) → (INT_MIN ≤ g ∧ g ≤ INT_MAX) →
      (INT_MIN ≤ b ∧ b ≤ INT_MAX) → (INT_MIN ≤ a ∧ a ≤ INT_MAX) →
      (c1 = ',' ∨ c1 = ';') → (c2 = ',' ∨ c2 = ';') → (c3 = ',' ∨ c3 = ';') →
      toRGBA dflt (intText r ++ c1 :: (intText g ++ c2 :: (intText b ++ c3 :: intText a)))
        = some ⟨(r % 256).toNat, (g % 256).toNat, (b % 256).toNat, (a % 256).toNat⟩ := by
    intro r g b a c1 c2 c3 hr hg hb ha h1 h2 h3
    have lr := length_intText_le r
    have lg := length_intText_le g
    have lb := length_intText_le b
    have la := length_intText_le a
    have br : r.natAbs ≤ 2147483648 := by
      have := hr.1
      have := hr.2
      unfold INT_MIN at *
      unfold INT_MAX at *
      omega
    have bg : g.natAbs ≤ 2147483648 := by
      have := hg.1
      have := hg.2
      unfold INT_MIN at *
      unfold INT_MAX at *
      omega
    have bb : b.natAbs ≤ 2147483648 := by
      have := hb.1
      have := hb.2
      unfold INT_MIN at *
      unfold INT_MAX at *
      omega
    have ba : a.natAbs ≤ 2147483648 := by
      have := ha.1
      have := ha.2
      unfold INT_MIN at *
      unfold INT_MAX at *
      omega
    have e1 := popFirstInt_head dflt r c1 (intText g ++ c2 :: (intText b ++ c3 :: intText a))
      hr.1 hr.2 (comma_or_semicolon c1 h1)
      (by rw [npos_eq]; simp only [List.length_append, List.length_cons]; omega)
    have e2 := popFirstInt_head dflt g c2 (intText b ++ c3 :: intText a)
      hg.1 hg.2 (comma_or_semicolon c2 h2)
      (by rw [npos_eq]; simp only [List.length_append, List.length_cons]; omega)
    have e3 := popFirstInt_head dflt b c3 (intText a)
      hb.1 hb.2 (comma_or_semicolon c3 h3)
      (by rw [npos_eq]; simp only [List.length_append, List.length_cons]; omega)
    have e4 := popFirstInt_last dflt a ha.1 ha.2 (by rw [npos_eq]; omega)
    unfold toRGBA
    rw [e1]
    simp only [Option.bind_eq_bind, Option.some_bind]
    rw [e2]
    simp only [Option.some_bind]
    rw [e3]
    simp only [Option.some_bind]
    rw [e4]
    rfl
  have hz : INT_MIN ≤ 0 ∧ (0 : Int) ≤ INT_MAX := by decide
  have hcomma : (',' : Char) = ',' ∨ (',' : Char) = ';' := Or.inl rfl
  refine ⟨key r g b a c1 c2 c3 hr hg hb ha h1 h2 h3,
    by omega, by omega, by omega, by omega, ?_, ?_⟩
  · exact key 255 0 128 64 ',' ',' ',' (by decide) hz (by decide) (by decide)
      hcomma hcomma hcomma
  · have := key 300 0 0 0 ',' ',' ',' (by decide) hz hz hz hcomma hcomma hcomma
    have e : "300,0,0,0".toList
        = intText 300 ++ ',' :: (intText 0 ++ ',' :: (intText 0 ++ ',' :: intText 0)) := by
      decide
    rw [e, this]
    rfl

theorem toRGBA_wraps_witness :
    (INT_MIN ≤ 300 ∧ (300 : Int) ≤ INT_MAX) ∧ (INT_MIN ≤ -1 ∧ (-1 : Int) ≤ INT_MAX) ∧
      (INT_MIN ≤ 128 ∧ (128 : Int) ≤ INT_MAX) ∧ (INT_MIN ≤ 64 ∧ (64 : Int) ≤ INT_MAX) ∧
      ((',' : Char) = ',' ∨ (',' : Char) = ';') ∧ ((';' : Char) = ',' ∨ (';' : Char) = ';') ∧
      ((',' : Char) = ',' ∨ (',' : Char) = ';') ∧
      (toRGBA 0 (intText 300 ++ ',' :: (intText (-1) ++ ';' :: (intText 128 ++ ',' ::
          intText 64)))
        = some ⟨(300 % 256 : Int).toNat, (-1 % 256 : Int).toNat, (128 % 256 : Int).toNat,
            (64 % 256 : Int).toNat⟩ ∧
      (300 % 256 : Int).toNat < 256 ∧ (-1 % 256 : Int).toNat < 256 ∧
      (128 % 256 : Int).toNat < 256 ∧ (64 % 256 : Int).toNat < 256 ∧
      toRGBA 0 "255,0,128,64".toList = some ⟨255, 0, 128, 64⟩ ∧
      (toRGBA 0 "300,0,0,0".toList).map Color.r = some 44) :=
  ⟨by decide, by decide, by decide, by decide, Or.inl rfl, Or.inr rfl, Or.inl rfl,
    toRGBA_wraps 0 300 (-1) 128 64 ',' ';' ',' (by decide) (by decide) (by decide)
      (by decide) (Or.inl rfl) (Or.inr rfl) (Or.inl rfl)⟩

/-! ## Facts about `popLabelInfo` -/

theorem popFirstString_fst (s : Str) (h : s.length < npos) :
    ∃ r, popFirstString s (Char.ofNat 0) = some (firstToken s, r) := by
  rw [popFirstString_eq s _ h]
  split
  · exact ⟨_, rfl⟩
  · rename_i hk
    have hle := length_takeWhile_le (fun x => !isSeparator (Char.ofNat 0) x) s
    have e : firstToken s = s := by
      unfold firstToken
      rw [← take_takeWhile_length]
      exact List.take_of_length_le (by omega)
    rw [e]
    exact ⟨_, rfl⟩

theorem popFirstInt_total (dflt : Int) (s : Str) (sep : Char) :
    ∃ r, popFirstInt dflt s sep = some r := by
  obtain ⟨r, hr⟩ := popFirstString_total s sep
  unfold popFirstInt
  rw [hr]
  exact ⟨_, rfl⟩

theorem popLabelInfo_hidden (init : LabelInfo) (dflt : Int) (val rest : Str)
    (h : popFirstString val (Char.ofNat 0) = some ("hidden".toList, rest)) :
    popLabelInfo init dflt val = some { init with hidden := true } := by
  unfold popLabelInfo
  rw [h]
  rfl

theorem popLabelInfo_shown (init : LabelInfo) (dflt : Int) (val tok rest : Str)
    (h : popFirstString val (Char.ofNat 0) = some (tok, rest)) (hne : tok ≠ "hidden".toList) :
    ∃ info, popLabelInfo init dflt val = some info ∧ info.hidden = false := by
  obtain ⟨y, hy⟩ := popFirstInt_total dflt rest (Char.ofNat 0)
  obtain ⟨j, hj⟩ := popFirstString_total y.2 (Char.ofNat 0)
  obtain ⟨v, hv⟩ := popFirstString_total j.2 (Char.ofNat 0)
  obtain ⟨st, hst⟩ := popFirstString_total v.2 (Char.ofNat 0)
  unfold popLabelInfo
  rw [h]
  simp only [Option.bind_eq_bind, Option.some_bind, if_neg hne]
  rw [hy]
  simp only [Option.some_bind]
  rw [hj]
  simp only [Option.some_bind]
  rw [hv]
  simp only [Option.some_bind]
  rw [hst]
  simp only [Option.some_bind]
  refine ⟨_, rfl, ?_⟩
  split_ifs <;> rfl

theorem intText_chars (v : Int) : ∀ c ∈ intText v, isdigit c = true ∨ c = '-' := by
  intro c hc
  unfold intText at hc
  split at hc
  · rcases List.mem_cons.1 hc with rfl | hc
    · exact Or.inr rfl
    · exact Or.inl (natText_isdigit _ c hc)
  · exact Or.inl (natText_isdigit _ c hc)

theorem intText_ne_hidden (v : Int) : intText v ≠ "hidden".toList := by
  intro h
  have hm : 'h' ∈ intText v := by
    rw [h]
    decide
  rcases intText_chars v 'h' hm with h1 | h1
  · revert h1
    decide
  · revert h1
    decide

/-- The descriptor read from five fields separated by commas. -/
theorem popLabelInfo_fields (init : LabelInfo) (dflt x y : Int) (jt vt st : Str)
    (hx1 : INT_MIN ≤ x) (hx2 : x ≤ INT_MAX) (hy1 : INT_MIN ≤ y) (hy2 : y ≤ INT_MAX)
    (hjt : ∀ c ∈ jt, isSeparator (Char.ofNat 0) c = false)
    (hvt : ∀ c ∈ vt, isSeparator (Char.ofNat 0) c = false)
    (hst : ∀ c ∈ st, isSeparator (Char.ofNat 0) c = false)
    (hlen : jt.length + vt.length + st.length < 2 ^ 63) :
    popLabelInfo init dflt
        (intText x ++ ',' :: (intText y ++ ',' :: (jt ++ ',' :: (vt ++ ',' :: st))))
      = some
        { x := x, y := y, hidden := false,
          justify :=
            if jt = "left".toList then Justify.left
            else if jt = "center".toList then Justify.center
            else if jt = "right".toList then Justify.right
            else init.justify,
          valign :=
            if vt = "top".toList then VAlign.top
            else if vt = "center".toList then VAlign.center
            else if vt = "bottom".toList then VAlign.bottom
            else init.valign,
          font_style := if st ≠ [] then st else init.font_style } := by
  have hc : isSeparator (Char.ofNat 0) ',' = true := by decide
  unfold INT_MIN at hx1 hy1
  unfold INT_MAX at hx2 hy2
  have lx := length_intText_le x
  have ly := length_intText_le y
  have e1 := pop_split (intText x) (intText y ++ ',' :: (jt ++ ',' :: (vt ++ ',' :: st))) ','
    (Char.ofNat 0)
    (by rw [npos_eq]; simp only [List.length_append, List.length_cons]; omega)
    (intText_not_separator x) hc
  have e2 := popFirstInt_head dflt y ',' (jt ++ ',' :: (vt ++ ',' :: st))
    (by unfold INT_MIN; omega) (by unfold INT_MAX; omega) hc
    (by rw [npos_eq]; simp only [List.length_append, List.length_cons]; omega)
  have e3 := pop_split jt (vt ++ ',' :: st) ',' (Char.ofNat 0)
    (by rw [npos_eq]; simp only [List.length_append, List.length_cons]; omega) hjt hc
  have e4 := pop_split vt st ',' (Char.ofNat 0)
    (by rw [npos_eq]; simp only [List.length_append, List.length_cons]; omega) hvt hc
  have e5 := pop_nosep st (Char.ofNat 0) (by rw [npos_eq]; omega) hst
  have ex := toInt_intText_end x dflt (by unfold INT_MIN; omega) (by unfold INT_MAX; omega)
  unfold popLabelInfo
  rw [e1]
  simp only [Option.bind_eq_bind, Option.some_bind, if_neg (intText_ne_hidden x), ex]
  rw [e2]
  simp only [Option.some_bind]
  rw [e3]
  simp only [Option.some_bind]
  rw [e4]
  simp only [Option.some_bind]
  rw [e5]
  simp only [Option.some_bind]
  split_ifs <;> rfl

theorem justify_keyword_if (j d : Justify) :
    (if j.keyword = "left".toList then Justify.left
      else if j.keyword = "center".toList then Justify.center
      else if j.keyword = "right".toList then Justify.right
      else d) = j := by
  cases j <;> rfl

theorem valign_keyword_if (v d : VAlign) :
    (if v.keyword = "top".toList then VAlign.top
      else if v.keyword = "center".toList then VAlign.center
      else if v.keyword = "bottom".toList then VAlign.bottom
      else d) = v := by
  cases v <;> rfl

theorem justify_keyword_plain (j : Justify) :
    ∀ c ∈ j.keyword, isSeparator (Char.ofNat 0) c = false := by
  cases j <;> decide

theorem valign_keyword_plain (v : VAlign) :
    ∀ c ∈ v.keyword, isSeparator (Char.ofNat 0) c = false := by
  cases v <;> decide

theorem justify_keyword_length (j : Justify) : j.keyword.length ≤ 6 := by
  cases j <;> decide

theorem valign_keyword_length (v : VAlign) : v.keyword.length ≤ 6 := by
  cases v <;> decide

/-! ## Claim about `popLabelInfo` -/

/-- C18: `popLabelInfo` sets the hidden flag exactly when the first token of
the text is `hidden`, and then leaves every other field as constructed.  On
`x,y,j,v,st` with `int`s `x`, `y`, keywords `j`, `v` and a style `st` it
returns `x`, `y`, the justification of `j`, the alignment of `v` and `st`,
not hidden; an unrecognized keyword `jt` or `vt`, or an empty style, leaves
the justification, the alignment or the style as constructed. -/
theorem popLabelInfo_reads_fields (init : LabelInfo) (dflt x y : Int) (text jt vt st : Str)
    (j : Justify) (v : VAlign) (htext : text.length < npos)
    (hx : INT_MIN ≤ x ∧ x ≤ INT_MAX) (hy : INT_MIN ≤ y ∧ y ≤ INT_MAX)
    (hst : st ≠ [] ∧ ∀ c ∈ st, isSeparator (Char.ofNat 0) c = false)
    (hjt : (∀ c ∈ jt, isSeparator (Char.ofNat 0) c = false) ∧
      jt ∉ ["left".toList, "center".toList, "right".toList])
    (hvt : (∀ c ∈ vt, isSeparator (Char.ofNat 0) c = false) ∧
      vt ∉ ["top".toList, "center".toList, "bottom".toList])
    (hlen : jt.length + vt.length + st.length < 2 ^ 62) :
    (∃ info, popLabelInfo init dflt text = some info ∧
      (info.hidden = true ↔ firstToken text = "hidden".toList) ∧
      (firstToken text = "hidden".toList → info = { init with hidden := true })) ∧
    popLabelInfo init dflt (labelText x y j.keyword v.keyword st)
      = some ⟨x, y, j, v, false, st⟩ ∧
    popLabelInfo init dflt (labelText x y jt v.keyword st)
      = some ⟨x, y, init.justify, v, false, st⟩ ∧
    popLabelInfo init dflt (labelText x y j.keyword vt st)
      = some ⟨x, y, j, init.valign, false, st⟩ ∧
    popLabelInfo init dflt (labelText x y j.keyword v.keyword [])
      = some ⟨x, y, j, v, false, init.font_style⟩ ∧
    popLabelInfo init dflt "hidden".toList = some { init with hidden := true } ∧
    popLabelInfo init dflt "10,20,left,top,bold".toList
      = some ⟨10, 20, Justify.left, VAlign.top, false, "bold".toList⟩ := by
  have lj := justify_keyword_length j
  have lv := valign_keyword_length v
  obtain ⟨hx1, hx2⟩ := hx
  obtain ⟨hy1, hy2⟩ := hy
  obtain ⟨hst0, hst⟩ := hst
  obtain ⟨hjt, hjn⟩ := hjt
  obtain ⟨hvt, hvn⟩ := hvt
  simp only [List.mem_cons, List.mem_singleton, List.not_mem_nil, or_false, not_or] at hjn hvn
  obtain ⟨hj1, hj2, hj3⟩ := hjn
  obtain ⟨hv1, hv2, hv3⟩ := hvn
  have hhid : popLabelInfo init dflt "hidden".toList = some { init with hidden := true } :=
    popLabelInfo_hidden init dflt _ [] (pop_nosep _ _ (by decide) (by decide))
  refine ⟨?_, ?_, ?_, ?_, ?_, hhid, ?_⟩
  · obtain ⟨r, hr⟩ := popFirstString_fst text htext
    by_cases hh : firstToken text = "hidden".toList
    · rw [hh] at hr
      refine ⟨_, popLabelInfo_hidden init dflt text r hr, ?_, fun _ => rfl⟩
      exact ⟨fun _ => hh, fun _ => rfl⟩
    · obtain ⟨info, hinfo, hfalse⟩ := popLabelInfo_shown init dflt text _ r hr hh
      refine ⟨info, hinfo, ?_, fun h => absurd h hh⟩
      rw [hfalse]
      exact ⟨fun h => absurd h (by decide), fun h => absurd h hh⟩
  · have := popLabelInfo_fields init dflt x y j.keyword v.keyword st hx1 hx2 hy1 hy2
      (justify_keyword_plain j) (valign_keyword_plain v) hst (by omega)
    rw [justify_keyword_if, valign_keyword_if, if_pos hst0] at this
    exact this
  · have := popLabelInfo_fields init dflt x y jt v.keyword st hx1 hx2 hy1 hy2
      hjt (valign_keyword_plain v) hst (by omega)
    rw [if_neg hj1, if_neg hj2, if_neg hj3, valign_keyword_if, if_pos hst0] at this
    exact this
  · have := popLabelInfo_fields init dflt x y j.keyword vt st hx1 hx2 hy1 hy2
      (justify_keyword_plain j) hvt hst (by omega)
    rw [justify_keyword_if, if_neg hv1, if_neg hv2, if_neg hv3, if_pos hst0] at this
    exact this
  · have := popLabelInfo_fields init dflt x y j.keyword v.keyword [] hx1 hx2 hy1 hy2
      (justify_keyword_plain j) (valign_keyword_plain v) (by simp) (by simp; omega)
    rw [justify_keyword_if, valign_keyword_if, if_neg (by simp)] at this
    exact this
  · have hplain : ∀ t : Str, t ∈ ["left".toList, "top".toList, "bold".toList] →
        ∀ c ∈ t, isSeparator (Char.ofNat 0) c = false := by decide
    have := popLabelInfo_fields init dflt 10 20 "left".toList "top".toList "bold".toList
      (by decide) (by decide) (by decide) (by decide)
      (hplain _ (List.mem_cons_self _ _))
      (hplain _ (List.mem_cons_of_mem _ (List.mem_cons_self _ _)))
      (hplain _ (List.mem_cons_of_mem _ (List.mem_cons_of_mem _ (List.mem_cons_self _ _))))
      (by decide)
    exact this

theorem popLabelInfo_reads_fields_witness :
    ("hidden,1".toList).length < npos ∧
    (INT_MIN ≤ 10 ∧ (10 : Int) ≤ INT_MAX) ∧ (INT_MIN ≤ -20 ∧ (-20 : Int) ≤ INT_MAX) ∧
    ("bold".toList ≠ [] ∧ ∀ c ∈ "bold".toList, isSeparator (Char.ofNat 0) c = false) ∧
    ((∀ c ∈ "lft".toList, isSeparator (Char.ofNat 0) c = false) ∧
      "lft".toList ∉ ["left".toList, "center".toList, "right".toList]) ∧
    ((∀ c ∈ "up".toList, isSeparator (Char.ofNat 0) c = false) ∧
      "up".toList ∉ ["top".toList, "center".toList, "bottom".toList]) ∧
    "lft".toList.length + "up".toList.length + "bold".toList.length < 2 ^ 62 ∧
    ((∃ info, popLabelInfo ⟨0, 0, Justify.left, VAlign.top, false, "plain".toList⟩ 0
        "hidden,1".toList = some info ∧
      (info.hidden = true ↔ firstToken "hidden,1".toList = "hidden".toList) ∧
      (firstToken "hidden,1".toList = "hidden".toList →
        info = ⟨0, 0, Justify.left, VAlign.top, true, "plain".toList⟩)) ∧
    popLabelInfo ⟨0, 0, Justify.left, VAlign.top, false, "plain".toList⟩ 0
        (labelText 10 (-20) Justify.right.keyword VAlign.bottom.keyword "bold".toList)
      = some ⟨10, -20, Justify.right, VAlign.bottom, false, "bold".toList⟩ ∧
    popLabelInfo ⟨0, 0, Justify.left, VAlign.top, false, "plain".toList⟩ 0
        (labelText 10 (-20) "lft".toList VAlign.bottom.keyword "bold".toList)
      = some ⟨10, -20, Justify.left, VAlign.bottom, false, "bold".toList⟩ ∧
    popLabelInfo ⟨0, 0, Justify.left, VAlign.top, false, "plain".toList⟩ 0
        (labelText 10 (-20) Justify.right.keyword "up".toList "bold".toList)
      = some ⟨10, -20, Justify.right, VAlign.top, false, "bold".toList⟩ ∧
    popLabelInfo ⟨0, 0, Justify.left, VAlign.top, false, "plain".toList⟩ 0
        (labelText 10 (-20) Justify.right.keyword VAlign.bottom.keyword [])
      = some ⟨10, -20, Justify.right, VAlign.bottom, false, "plain".toList⟩ ∧
    popLabelInfo ⟨0, 0, Justify.left, VAlign.top, false, "plain".toList⟩ 0 "hidden".toList
      = some ⟨0, 0, Justify.left, VAlign.top, true, "plain".toList⟩ ∧
    popLabelInfo ⟨0, 0, Justify.left, VAlign.top, false, "plain".toList⟩ 0
        "10,20,left,top,bold".toList
      = some ⟨10, 20, Justify.left, VAlign.top, false, "bold".toList⟩) :=
  ⟨by decide, by decide, by decide, by decide, by decide, by decide, by decide,
    popLabelInfo_reads_fields ⟨0, 0, Justify.left, VAlign.top, false, "plain".toList⟩ 0 10
      (-20) "hidden,1".toList "lft".toList "up".toList "bold".toList Justify.right
      VAlign.bottom (by decide) (by decide) (by decide) (by decide) (by decide) (by decide)
      (by decide)⟩

/-! ## Facts about the typed extractions -/

/-- A signed extraction reads back the decimal text of a value of its range. -/
theorem extractSigned_intText (lo hi v old : Int) (rest : Str) (hlo : lo ≤ v) (hhi : v ≤ hi)
    (hr : ∀ c, rest.head? = some c → isdigit c = false) :
    extractSigned lo hi ⟨intText v ++ rest, false⟩ old = (v, ⟨rest, false⟩) := by
  have hsplit := takeWhile_append_stop isdigit (natText v.natAbs) rest
    (natText_isdigit v.natAbs) hr
  obtain ⟨d, ds, hd⟩ := List.exists_cons_of_ne_nil (natText_ne_nil v.natAbs)
  have hdig : isdigit d = true := natText_isdigit v.natAbs d (by rw [hd]; simp)
  obtain ⟨hd1, hd2, hd3⟩ := isdigit_not_space d hdig
  unfold extractSigned
  simp only [Bool.false_eq_true, if_false]
  by_cases hneg : v < 0
  · have e : intText v ++ rest = '-' :: (natText v.natAbs ++ rest) := by
      unfold intText
      rw [if_pos hneg]
      rfl
    have hdrop : (intText v ++ rest).dropWhile isspace = '-' :: (natText v.natAbs ++ rest) := by
      rw [e, List.dropWhile_cons]
      rfl
    rw [hdrop]
    simp only [true_or, if_true, hsplit.1, hsplit.2, digitsValue_natText]
    rw [if_neg (natText_ne_nil _)]
    have hv : -((v.natAbs : Nat) : Int) = v := by omega
    rw [hv, if_neg (by omega), if_neg (by omega)]
  · have e : intText v ++ rest = d :: (ds ++ rest) := by
      unfold intText
      rw [if_neg hneg, hd]
      rfl
    have hdrop : (intText v ++ rest).dropWhile isspace = d :: (ds ++ rest) := by
      rw [e, List.dropWhile_cons, hd1]
      rfl
    have hbody : d :: (ds ++ rest) = natText v.natAbs ++ rest := by
      rw [hd]
      rfl
    rw [hdrop]
    simp only [hd2, hd3, or_self, if_false]
    rw [hbody]
    simp only [hsplit.1, hsplit.2, digitsValue_natText]
    rw [if_neg (natText_ne_nil _)]
    have hv : ((v.natAbs : Nat) : Int) = v := by omega
    rw [hv, if_neg (by omega), if_neg (by omega)]

/-- An unsigned extraction reads back the decimal text of a value of its
range. -/
theorem extractUnsigned_intText (max v old : Int) (rest : Str) (hlo : 0 ≤ v) (hhi : v ≤ max)
    (hr : ∀ c, rest.head? = some c → isdigit c = false) :
    extractUnsigned max ⟨intText v ++ rest, false⟩ old = (v, ⟨rest, false⟩) := by
  have hsplit := takeWhile_append_stop isdigit (natText v.natAbs) rest
    (natText_isdigit v.natAbs) hr
  obtain ⟨d, ds, hd⟩ := List.exists_cons_of_ne_nil (natText_ne_nil v.natAbs)
  have hdig : isdigit d = true := natText_isdigit v.natAbs d (by rw [hd]; simp)
  obtain ⟨hd1, hd2, hd3⟩ := isdigit_not_space d hdig
  have e : intText v ++ rest = d :: (ds ++ rest) := by
    unfold intText
    rw [if_neg (by omega), hd]
    rfl
  have hdrop : (intText v ++ rest).dropWhile isspace = d :: (ds ++ rest) := by
    rw [e, List.dropWhile_cons, hd1]
    rfl
  have hbody : d :: (ds ++ rest) = natText v.natAbs ++ rest := by
    rw [hd]
    rfl
  unfold extractUnsigned
  simp only [Bool.false_eq_true, if_false]
  rw [hdrop]
  simp only [hd2, hd3, or_self, if_false]
  rw [hbody]
  simp only [hsplit.1, hsplit.2, digitsValue_natText]
  rw [if_neg (natText_ne_nil _)]
  have hv : ((v.natAbs : Nat) : Int) = v := by omega
  rw [hv, if_neg (by omega)]

theorem extractChar_single (c old : Char) :
    extractChar ⟨[c], false⟩ old
      = if isspace c = true then (old, ⟨[], true⟩) else (c, ⟨[], false⟩) := by
  unfold extractChar
  simp only [Bool.false_eq_true, if_false]
  by_cases h : isspace c = true
  · rw [if_pos h]
    have : [c].dropWhile isspace = [] := by simp [List.dropWhile_cons, h]
    rw [this]
  · rw [if_neg h]
    have : [c].dropWhile isspace = [c] := by simp [List.dropWhile_cons, h]
    rw [this]

/-! ## Claims about `tryParseValue` and `toString` -/

/-- C16: for the kinds `bool`, `int`, `unsigned int`, `short`,
`unsigned short` and `std::string`, parsing the text that `toString` gives
for a value `v` of the kind returns `true` and stores `v`, whatever the slot
held before. -/
theorem tryParseValue_toString (readFloat : IStream → Int → Int × IStream)
    (showFloat : Int → Str) (b b0 : Bool) (i i0 u u0 h h0 w w0 : Int) (s s0 : Str)
    (hi : INT_MIN ≤ i ∧ i ≤ INT_MAX) (hu : 0 ≤ u ∧ u ≤ UINT_MAX)
    (hh : SHRT_MIN ≤ h ∧ h ≤ SHRT_MAX) (hw : 0 ≤ w ∧ w ≤ USHRT_MAX) :
    tryParseValue readFloat (toString showFloat (.bool b)) (.bool b0) = (true, .bool b) ∧
    tryParseValue readFloat (toString showFloat (.int i)) (.int i0) = (true, .int i) ∧
    tryParseValue readFloat (toString showFloat (.uint u)) (.uint u0) = (true, .uint u) ∧
    tryParseValue readFloat (toString showFloat (.short h)) (.short h0) = (true, .short h) ∧
    tryParseValue readFloat (toString showFloat (.ushort w)) (.ushort w0)
      = (true, .ushort w) ∧
    tryParseValue readFloat (toString showFloat (.string s)) (.string s0)
      = (true, .string s) := by
  refine ⟨?_, ?_, ?_, ?_, ?_, rfl⟩
  · cases b <;> cases b0 <;> rfl
  · have := extractInt_intText i i0 [] hi.1 hi.2 (by simp)
    rw [List.append_nil] at this
    simp only [tryParseValue, toString, this]
    rfl
  · have := extractUnsigned_intText UINT_MAX u u0 [] hu.1 hu.2 (by simp)
    rw [List.append_nil] at this
    simp only [tryParseValue, toString, this]
    rfl
  · have := extractSigned_intText SHRT_MIN SHRT_MAX h h0 [] hh.1 hh.2 (by simp)
    rw [List.append_nil] at this
    simp only [tryParseValue, toString, this]
    rfl
  · have := extractUnsigned_intText USHRT_MAX w w0 [] hw.1 hw.2 (by simp)
    rw [List.append_nil] at this
    simp only [tryParseValue, toString, this]
    rfl

theorem tryParseValue_toString_witness :
    (INT_MIN ≤ -2147483648 ∧ (-2147483648 : Int) ≤ INT_MAX) ∧
    ((0 : Int) ≤ 4294967295 ∧ (4294967295 : Int) ≤ UINT_MAX) ∧
    (SHRT_MIN ≤ -7 ∧ (-7 : Int) ≤ SHRT_MAX) ∧ ((0 : Int) ≤ 65535 ∧ (65535 : Int) ≤ USHRT_MAX) ∧
    (tryParseValue (fun st x => (x, st)) (toString (fun _ => []) (.bool true)) (.bool false)
      = (true, .bool true) ∧
    tryParseValue (fun st x => (x, st)) (toString (fun _ => []) (.int (-2147483648))) (.int 1)
      = (true, .int (-2147483648)) ∧
    tryParseValue (fun st x => (x, st)) (toString (fun _ => []) (.uint 4294967295)) (.uint 1)
      = (true, .uint 4294967295) ∧
    tryParseValue (fun st x => (x, st)) (toString (fun _ => []) (.short (-7))) (.short 1)
      = (true, .short (-7)) ∧
    tryParseValue (fun st x => (x, st)) (toString (fun _ => []) (.ushort 65535)) (.ushort 1)
      = (true, .ushort 65535) ∧
    tryParseValue (fun st x => (x, st)) (toString (fun _ => []) (.string " a b ".toList))
        (.string [])
      = (true, .string " a b ".toList)) :=
  ⟨by decide, by decide, by decide, by decide,
    tryParseValue_toString (fun st x => (x, st)) (fun _ => []) true false (-2147483648) 1
      4294967295 1 (-7) 1 65535 1 " a b ".toList [] (by decide) (by decide) (by decide)
      (by decide)⟩

/-- C17 (as stated, refuted): the text of the space character is `" "`;
parsing it as a `char` skips the space, reads nothing, returns `false` and
leaves the slot as it was.  The same holds for the tab and the newline. -/
theorem tryParseValue_space_char :
    toString (fun _ => []) (.char ' ') = " ".toList ∧
    tryParseValue (fun st x => (x, st)) (toString (fun _ => []) (.char ' ')) (.char 'x')
      = (false, .char 'x') ∧
    tryParseValue (fun st x => (x, st)) (toString (fun _ => []) (.char '\t')) (.char 'x')
      = (false, .char 'x') ∧
    tryParseValue (fun st x => (x, st)) (toString (fun _ => []) (.uchar '\n')) (.uchar 'x')
      = (false, .uchar 'x') ∧
    tryParseValue (fun st x => (x, st)) (toString (fun _ => []) (.char ' ')) (.char 'x')
      ≠ (true, .char ' ') := by
  decide

/-- C17 (amended): for a `char` or `unsigned char` `c` that is not a white
space character, parsing the text that `toString` gives for `c` returns
`true` and stores `c`; for a white space character it returns `false` and
leaves the slot as it was. -/
theorem tryParseValue_toString_char (readFloat : IStream → Int → Int × IStream)
    (showFloat : Int → Str) (c c0 : Char) (hc : isspace c = false) :
    tryParseValue readFloat (toString showFloat (.char c)) (.char c0) = (true, .char c) ∧
    tryParseValue readFloat (toString showFloat (.uchar c)) (.uchar c0) = (true, .uchar c) ∧
    ∀ w w0 : Char, isspace w = true →
      tryParseValue readFloat (toString showFloat (.char w)) (.char w0) = (false, .char w0) ∧
      tryParseValue readFloat (toString showFloat (.uchar w)) (.uchar w0)
        = (false, .uchar w0) := by
  have h := extractChar_single c c0
  rw [if_neg (by simp [hc])] at h
  refine ⟨?_, ?_, ?_⟩
  · simp only [tryParseValue, toString, h]
    rfl
  · simp only [tryParseValue, toString, h]
    rfl
  · intro w w0 hw
    have h2 := extractChar_single w w0
    rw [if_pos hw] at h2
    simp only [tryParseValue, toString, h2]
    exact ⟨rfl, rfl⟩

theorem tryParseValue_toString_char_witness :
    isspace 'a' = false ∧
    tryParseValue (fun st x => (x, st)) (toString (fun _ => []) (.char 'a')) (.char 'x')
      = (true, .char 'a') ∧
    tryParseValue (fun st x => (x, st)) (toString (fun _ => []) (.uchar 'a')) (.uchar 'x')
      = (true, .uchar 'a') ∧
    ∀ w w0 : Char, isspace w = true →
      tryParseValue (fun st x => (x, st)) (toString (fun _ => []) (.char w)) (.char w0)
        = (false, .char w0) ∧
      tryParseValue (fun st x => (x, st)) (toString (fun _ => []) (.uchar w)) (.uchar w0)
        = (false, .uchar w0) :=
  ⟨by decide, tryParseValue_toString_char (fun st x => (x, st)) (fun _ => []) 'a' 'x'
    (by decide)⟩

/-! ## Facts about whole seconds written in milliseconds -/

theorem f32div_thousand_nat (a : Nat) :
    f32div (a : Int) f32thousand = f32round ((a * 2 ^ 149 : Nat) : Int) (1000 * 2 ^ 149) := by
  have e : (a : Int) * 1 * (f32one : Int) = ((a * 2 ^ 149 : Nat) : Int) := by
    unfold f32one
    push_cast
    ring
  unfold f32div
  rw [f32thousand_sign, f32thousand_natAbs, e]

/-- The millisecond conversion of `toDuration` returns `m` on `1000 * m`,
for every `1000 * m` in the `int` range: the rounding errors of the
conversion to `float` and of the division stay below one half. -/
theorem ms_frames_thousand (m : Nat) (h1 : 1 ≤ m) (h2 : 1000 * m ≤ 2147483647) :
    f32toInt (floorf (f32add (f32div (f32ofInt ((1000 * m : Nat) : Int)) f32thousand)
      f32half)) = (m : Int) := by
  have hd : 0 < 1000 * 2 ^ 149 := by positivity
  obtain ⟨k, hk⟩ : ∃ k, k = 1000 * m / 128 := ⟨_, rfl⟩
  -- the product, converted to `float`, lies between its neighbours on the grid of 128
  have e : (((1000 * m : Nat) : Int)) * (f32one : Int) = ((1000 * m * 2 ^ 149 : Nat) : Int) := by
    unfold f32one
    push_cast
    ring
  have hAlo : ((k * 2 ^ 156 : Nat) : Int) ≤ f32ofInt ((1000 * m : Nat) : Int) := by
    unfold f32ofInt
    rw [e]
    exact le_f32round _ 1 _ (by decide) (by omega) (representable_of_mantissa k 156 (by omega))
  have hAhi : f32ofInt ((1000 * m : Nat) : Int) ≤ (((k + 1) * 2 ^ 156 : Nat) : Int) := by
    unfold f32ofInt
    rw [e]
    exact f32round_le _ 1 _ (by decide) (by omega)
      (representable_of_mantissa (k + 1) 156 (by omega))
  obtain ⟨a, ha⟩ := Int.eq_ofNat_of_zero_le (le_trans (Int.ofNat_nonneg _) hAlo)
  rw [ha] at hAlo hAhi ⊢
  have hAlo' : k * 2 ^ 156 ≤ a := by exact_mod_cast hAlo
  have hAhi' : a ≤ (k + 1) * 2 ^ 156 := by exact_mod_cast hAhi
  rw [f32div_thousand_nat]
  -- the quotient lies between `m - 1/2` and `m + 1/4`
  have hBlo : (((2 * m - 1) * 2 ^ 148 : Nat) : Int)
      ≤ f32round ((a * 2 ^ 149 : Nat) : Int) (1000 * 2 ^ 149) :=
    le_f32round _ _ _ hd (by omega) (representable_of_mantissa (2 * m - 1) 148 (by omega))
  have hBhi : f32round ((a * 2 ^ 149 : Nat) : Int) (1000 * 2 ^ 149)
      ≤ (((4 * m + 1) * 2 ^ 147 : Nat) : Int) :=
    f32round_le _ _ _ hd (by omega) (representable_of_mantissa (4 * m + 1) 147 (by omega))
  obtain ⟨b, hb⟩ := Int.eq_ofNat_of_zero_le (le_trans (Int.ofNat_nonneg _) hBlo)
  rw [hb] at hBlo hBhi ⊢
  have hBlo' : (2 * m - 1) * 2 ^ 148 ≤ b := by exact_mod_cast hBlo
  have hBhi' : b ≤ (4 * m + 1) * 2 ^ 147 := by exact_mod_cast hBhi
  rw [f32add_half]
  -- the sum lies between `m` and `m + 3/4`
  have hClo : ((m * 2 ^ 149 : Nat) : Int) ≤ f32round ((b + 2 ^ 148 : Nat) : Int) 1 :=
    le_f32round _ 1 _ (by decide) (by omega) (representable_of_mantissa m 149 (by omega))
  have hChi : f32round ((b + 2 ^ 148 : Nat) : Int) 1 ≤ (((4 * m + 3) * 2 ^ 147 : Nat) : Int) :=
    f32round_le _ 1 _ (by decide) (by omega)
      (representable_of_mantissa (4 * m + 3) 147 (by omega))
  have hlt : (4 * m + 3) * 2 ^ 147 < (m + 1) * 2 ^ 149 := by omega
  exact f32toInt_floorf _ m hClo (lt_of_le_of_lt hChi (by exact_mod_cast hlt))

/-! ## Claim about the agreement of the two units -/

/-- C20: for a positive `n` and a positive rate `fps` with `1000 * n * fps`
in the `int` range, `toDuration` of `n` with the suffix `s` and `toDuration`
of `1000 * n` with the suffix `ms` are both `n * fps`. -/
theorem toDuration_units_agree (n fps : Int) (hn : 0 < n) (hfps : 0 < fps)
    (hx : 1000 * n * fps ≤ INT_MAX) :
    toDuration fps (intText n ++ "s".toList) = n * fps ∧
      toDuration fps (intText (1000 * n) ++ "ms".toList) = n * fps ∧
      toDuration fps (intText n ++ "s".toList)
        = toDuration fps (intText (1000 * n) ++ "ms".toList) := by
  unfold INT_MAX at hx
  have hpos : 0 < n * fps := mul_pos hn hfps
  have hn1 : n ≤ n * fps := le_mul_of_one_le_right (le_of_lt hn) (by omega)
  have hprod : 1000 * n * fps = 1000 * (n * fps) := by ring
  have hs : toDuration fps (intText n ++ "s".toList) = n * fps := by
    have h1 := extractInt_intText n 0 "s".toList (by unfold INT_MIN; omega)
      (by unfold INT_MAX; omega) (by decide)
    have h2 : extractWord ⟨"s".toList, false⟩ [] = ("s".toList, ⟨[], false⟩) := by decide
    unfold toDuration
    simp only [h1]
    rw [h2]
    simp only [if_neg (show ¬ (n = 0) by omega), if_true]
    rw [wrapInt_of_range _ (by unfold INT_MIN; omega) (by unfold INT_MAX; omega)]
    split <;> omega
  have hms : toDuration fps (intText (1000 * n) ++ "ms".toList) = n * fps := by
    have h1 := extractInt_intText (1000 * n) 0 "ms".toList (by unfold INT_MIN; omega)
      (by unfold INT_MAX; omega) (by decide)
    have hw : (extractWord ⟨"ms".toList, false⟩ []).1 ≠ "s".toList := by decide
    obtain ⟨m, hm⟩ := Int.eq_ofNat_of_zero_le (le_of_lt hpos)
    have hconv := ms_frames_thousand m (by omega) (by omega)
    have hwrap : wrapInt (1000 * n * fps) = ((1000 * m : Nat) : Int) := by
      rw [wrapInt_of_range _ (by unfold INT_MIN; omega) (by unfold INT_MAX; omega), hprod, hm]
      push_cast
      rfl
    unfold toDuration
    simp only [h1]
    rw [if_neg (by omega), if_neg hw, hwrap, hconv, hm]
    split <;> omega
  exact ⟨hs, hms, by rw [hs, hms]⟩

theorem toDuration_units_agree_witness :
    (0 : Int) < 35791 ∧ (0 : Int) < 60 ∧ (1000 : Int) * 35791 * 60 ≤ INT_MAX ∧
      toDuration 60 (intText 35791 ++ "s".toList) = 35791 * 60 ∧
      toDuration 60 (intText (1000 * 35791) ++ "ms".toList) = 35791 * 60 ∧
      toDuration 60 (intText 35791 ++ "s".toList)
        = toDuration 60 (intText (1000 * 35791) ++ "ms".toList) :=
  ⟨by decide, by decide, by decide,
    toDuration_units_agree 35791 60 (by decide) (by decide) (by decide)⟩

end Parse
